import Mathlib

/-!
# Auto-Scholar orchestration engine — formal verification of spec claims

Shallow embedding, in Lean 4, of the parts of the Auto-Scholar backend that
the specification claims talk about:

* citation normalization (`backend/utils/citations.py`),
* the writer's paper-context builder and the critic's rule checks
  (`backend/nodes.py`),
* the paper-approval endpoint (`backend/main.py`),
* the model router (`backend/llm/router.py`),
* the schema-echo check in `structured_completion`
  (`backend/utils/llm_client.py`),
* the streaming event queue (`backend/utils/event_queue.py`),
* the QA → reflection → retry control loop (routers modelled from the spec
  and `tests/test_reflection.py`, since `backend/workflow.py` is not part of
  the provided sources).

Python strings are modelled as `List Char` (a Python `str` is a sequence of
code points), machine integers as `Nat` (Python ints are unbounded), and
fallible code as `Except`.  LM calls and other external effects are modelled
as explicit parameters or nondeterministic choices in a step relation.
-/

namespace AutoScholar

/-! ## Constants (from `backend/constants.py`) -/

def MAX_QA_RETRIES : Nat := 3

def CONTEXT_TOKEN_BUDGET : Nat := 40000

def CONTEXT_MAX_PAPERS : Nat := 200

def CONTEXT_OVERFLOW_WARNING_THRESHOLD : Nat := 100

/-! ## Data model

`PaperMetadata`, `ReviewSection` and `DraftOutput` are declared in
`backend/schemas.py`; only the fields the verified code paths touch are
embedded.  A section's `content` is a `List Char`. -/

structure PaperMetadata where
  paper_id : String
  title : String
  is_approved : Bool
  core_contribution : Option String
deriving DecidableEq, Repr

structure ReviewSection where
  heading : String
  content : List Char
  cited_paper_ids : List String
deriving DecidableEq, Repr

structure DraftOutput where
  title : String
  sections : List ReviewSection
deriving DecidableEq, Repr

/-! ## Citation scanning primitives (`backend/utils/citations.py`)

`re.sub(r"\x7bcite:(\d+)\x7d", ..., s)` and `re.findall(r"\[(\d+)\]", s)`
scan left to right and take non-overlapping matches.  For these two patterns
a match attempt at a given position is deterministic: after the literal
opening, the maximal run of digits must be non-empty and must be followed by
the literal closing character. -/

/-- Maximal run of decimal digits at the head of the list, together with the
remaining characters. -/
def digitsRun : List Char → List Char × List Char
  | [] => ([], [])
  | c :: cs =>
    if c.isDigit then
      let p := digitsRun cs
      (c :: p.1, p.2)
    else ([], c :: cs)

/-- Decimal value of a digit string, as Python's `int` computes it. -/
def natOfDigits (ds : List Char) : Nat :=
  ds.foldl (fun acc c => acc * 10 + (c.toNat - 48)) 0

/-- The literal opening of a citation placeholder. -/
def citeOpen : List Char := ['{', 'c', 'i', 't', 'e', ':']

/-- Attempt to match the placeholder pattern at the head of `l`.  On success
returns the numeric index and the characters after the match. -/
def citeTry (l : List Char) : Option (Nat × List Char) :=
  if citeOpen.isPrefixOf l then
    match digitsRun (l.drop 6) with
    | ([], _) => none
    | (d :: ds, r) =>
      match r with
      | rc :: r' => if rc = '}' then some (natOfDigits (d :: ds), r') else none
      | [] => none
  else none

/-- Attempt to match `[digits]` at the head of `l`. -/
def brTry (l : List Char) : Option (Nat × List Char) :=
  match l with
  | c :: rest =>
    if c = '[' then
      match digitsRun rest with
      | ([], _) => none
      | (d :: ds, r) =>
        match r with
        | rc :: r' => if rc = ']' then some (natOfDigits (d :: ds), r') else none
        | [] => none
    else none
  | [] => none

/-- Decimal digit characters of a natural number (auxiliary, fuel-driven). -/
def natDigitsCore : Nat → Nat → List Char → List Char
  | 0, _, acc => acc
  | fuel + 1, n, acc =>
    let d := Char.ofNat (48 + n % 10)
    if n < 10 then d :: acc else natDigitsCore fuel (n / 10) (d :: acc)

/-- Decimal digit characters of a natural number. -/
def natDigits (n : Nat) : List Char := natDigitsCore (n + 1) n []

/-- The rendered form `[n]` of an in-range citation. -/
def bracket (n : Nat) : List Char := '[' :: (natDigits n ++ [']'])

/-- Fuel-driven scanner for `re.sub`: replaces each placeholder match whose
index is in `1..maxIdx` by `bracket`, deletes out-of-range matches, copies
everything else.  With fuel `≥ l.length` the fuel never runs out. -/
def citeSubstF (maxIdx : Nat) : Nat → List Char → List Char
  | 0, l => l
  | _, [] => []
  | fuel + 1, c :: cs =>
    match citeTry (c :: cs) with
    | some (n, rest) =>
      (if 1 ≤ n ∧ n ≤ maxIdx then bracket n else []) ++ citeSubstF maxIdx fuel rest
    | none => c :: citeSubstF maxIdx fuel cs

/-- The substitution performed by `normalize_draft_citations` on one
section's content (the body of `re.sub` at `citations.py:41`). -/
def citeSubst (maxIdx : Nat) (l : List Char) : List Char :=
  citeSubstF maxIdx l.length l

/-- Fuel-driven `re.findall` for the placeholder pattern. -/
def citeMatchesF : Nat → List Char → List Nat
  | 0, _ => []
  | _, [] => []
  | fuel + 1, c :: cs =>
    match citeTry (c :: cs) with
    | some (n, rest) => n :: citeMatchesF fuel rest
    | none => citeMatchesF fuel cs

/-- All placeholder indices occurring in `l`, in match order. -/
def citeMatches (l : List Char) : List Nat := citeMatchesF l.length l

/-- Fuel-driven `re.findall(r"\[(\d+)\]", ...)`. -/
def bracketFindallF : Nat → List Char → List Nat
  | 0, _ => []
  | _, [] => []
  | fuel + 1, c :: cs =>
    match brTry (c :: cs) with
    | some (n, rest) => n :: bracketFindallF fuel rest
    | none => bracketFindallF fuel cs

/-- All bracketed numbers `[n]` occurring in `l`, in match order. -/
def bracketFindall (l : List Char) : List Nat := bracketFindallF l.length l

/-! ### Scanner lemmas -/

theorem digitsRun_append : ∀ l : List Char, (digitsRun l).1 ++ (digitsRun l).2 = l := by
  intro l
  induction l with
  | nil => rfl
  | cons c cs ih =>
    by_cases h : c.isDigit
    · simp [digitsRun, h, ih]
    · simp [digitsRun, h]

theorem digitsRun_digits : ∀ l : List Char, ∀ c ∈ (digitsRun l).1, c.isDigit := by
  intro l
  induction l with
  | nil => intro c hc; simp [digitsRun] at hc
  | cons a as ih =>
    intro c hc
    by_cases h : a.isDigit
    · simp [digitsRun, h] at hc
      rcases hc with rfl | hc
      · exact h
      · exact ih c hc
    · simp [digitsRun, h] at hc

theorem digitsRun_of_digits : ∀ (ds : List Char) (c : Char) (t : List Char),
    (∀ x ∈ ds, x.isDigit) → ¬ c.isDigit → digitsRun (ds ++ c :: t) = (ds, c :: t) := by
  intro ds
  induction ds with
  | nil => intro c t _ hc; simp [digitsRun, hc]
  | cons d ds ih =>
    intro c t hall hc
    have hd : d.isDigit := hall d (by simp)
    simp [digitsRun, hd, ih c t (fun x hx => hall x (by simp [hx])) hc]

/-- Characterization of a successful placeholder match. -/
theorem citeTry_eq_some {l : List Char} {n : Nat} {rest : List Char}
    (h : citeTry l = some (n, rest)) :
    ∃ ds, ds ≠ [] ∧ (∀ c ∈ ds, c.isDigit) ∧
      l = citeOpen ++ (ds ++ '}' :: rest) ∧ n = natOfDigits ds := by
  unfold citeTry at h
  by_cases hp : citeOpen.isPrefixOf l
  · rw [if_pos hp] at h
    obtain ⟨t, ht⟩ := List.isPrefixOf_iff_prefix.mp hp
    have hdrop : l.drop 6 = t := by
      rw [← ht]
      exact List.drop_left citeOpen t
    rcases hdr : digitsRun (l.drop 6) with ⟨ds0, r⟩
    rw [hdr] at h
    cases ds0 with
    | nil => simp at h
    | cons d ds' =>
      cases r with
      | nil => simp at h
      | cons rc r' =>
        dsimp only at h
        by_cases hrc : rc = '}'
        · subst hrc
          rw [if_pos rfl] at h
          simp only [Option.some.injEq, Prod.mk.injEq] at h
          have hsplit : (d :: ds') ++ '}' :: r' = l.drop 6 := by
            have := digitsRun_append (l.drop 6)
            rw [hdr] at this
            exact this
          refine ⟨d :: ds', by simp, ?_, ?_, h.1.symm⟩
          · intro c hc
            have := digitsRun_digits (l.drop 6) c
            rw [hdr] at this
            exact this hc
          · rw [← ht]
            congr 1
            rw [← hdrop, ← hsplit, h.2]
        · rw [if_neg hrc] at h
          simp at h
  · rw [if_neg hp] at h
    simp at h

/-- A successful placeholder match consumes at least 8 characters. -/
theorem citeTry_length {l : List Char} {n : Nat} {rest : List Char}
    (h : citeTry l = some (n, rest)) : rest.length + 8 ≤ l.length := by
  obtain ⟨ds, hne, _, hl, _⟩ := citeTry_eq_some h
  have : ds.length ≥ 1 := by
    cases ds with
    | nil => simp at hne
    | cons _ _ => simp
  subst hl
  simp [citeOpen]
  omega

/-- The placeholder matcher succeeds exactly on the literal pattern. -/
theorem citeTry_complete (ds : List Char) (post : List Char)
    (hne : ds ≠ []) (hdig : ∀ c ∈ ds, c.isDigit) :
    citeTry (citeOpen ++ (ds ++ '}' :: post)) = some (natOfDigits ds, post) := by
  unfold citeTry
  have hp : citeOpen.isPrefixOf (citeOpen ++ (ds ++ '}' :: post)) :=
    List.isPrefixOf_iff_prefix.mpr (List.prefix_append _ _)
  rw [if_pos hp]
  have hdrop : (citeOpen ++ (ds ++ '}' :: post)).drop 6 = ds ++ '}' :: post :=
    List.drop_left citeOpen _
  rw [hdrop, digitsRun_of_digits ds '}' post hdig (by decide)]
  cases ds with
  | nil => simp at hne
  | cons d ds' => rfl

/-- No placeholder match can start at a character other than a brace. -/
theorem citeTry_not_brace {c : Char} (cs : List Char) (h : c ≠ '{') :
    citeTry (c :: cs) = none := by
  unfold citeTry
  have : citeOpen.isPrefixOf (c :: cs) = false := by
    simp only [citeOpen, List.isPrefixOf]
    simp [beq_eq_false_iff_ne.mpr (Ne.symm h)]
  rw [this]
  simp

/-- Characterization of a successful `[digits]` match. -/
theorem brTry_eq_some {l : List Char} {n : Nat} {rest : List Char}
    (h : brTry l = some (n, rest)) :
    ∃ ds, ds ≠ [] ∧ l = '[' :: (ds ++ ']' :: rest) ∧ n = natOfDigits ds := by
  unfold brTry at h
  cases l with
  | nil => simp at h
  | cons c cs =>
    dsimp only at h
    by_cases hc : c = '['
    · subst hc
      rw [if_pos rfl] at h
      rcases hdr : digitsRun cs with ⟨ds0, r⟩
      rw [hdr] at h
      cases ds0 with
      | nil => simp at h
      | cons d ds' =>
        cases r with
        | nil => simp at h
        | cons rc r' =>
          dsimp only at h
          by_cases hrc : rc = ']'
          · subst hrc
            rw [if_pos rfl] at h
            simp only [Option.some.injEq, Prod.mk.injEq] at h
            have hsplit : (d :: ds') ++ ']' :: r' = cs := by
              have := digitsRun_append cs
              rw [hdr] at this
              exact this
            refine ⟨d :: ds', by simp, ?_, h.1.symm⟩
            rw [← hsplit, h.2]
          · rw [if_neg hrc] at h
            simp at h
    · rw [if_neg hc] at h
      simp at h

/-- A successful `[digits]` match consumes at least 3 characters. -/
theorem brTry_length {l : List Char} {n : Nat} {rest : List Char}
    (h : brTry l = some (n, rest)) : rest.length + 3 ≤ l.length := by
  obtain ⟨ds, hne, hl, _⟩ := brTry_eq_some h
  have : ds.length ≥ 1 := by
    cases ds with
    | nil => simp at hne
    | cons _ _ => simp
  subst hl
  simp
  omega

/-! ### Fuel irrelevance and unfolding equations -/

theorem citeSubstF_fuel (m : Nat) : ∀ (f₁ : Nat) (f₂ : Nat) (l : List Char),
    l.length ≤ f₁ → l.length ≤ f₂ → citeSubstF m f₁ l = citeSubstF m f₂ l := by
  intro f₁
  induction f₁ with
  | zero =>
    intro f₂ l h₁ _
    have : l = [] := List.eq_nil_of_length_eq_zero (Nat.le_zero.mp h₁)
    subst this
    cases f₂ <;> rfl
  | succ f ih =>
    intro f₂ l h₁ h₂
    cases l with
    | nil => cases f₂ <;> rfl
    | cons c cs =>
      cases f₂ with
      | zero => simp at h₂
      | succ f₂' =>
        simp only [citeSubstF]
        cases hct : citeTry (c :: cs) with
        | none =>
          dsimp only
          rw [ih f₂' cs (by simp at h₁; omega) (by simp at h₂; omega)]
        | some p =>
          rcases p with ⟨n, rest⟩
          dsimp only
          have hlen := citeTry_length hct
          simp only [List.length_cons] at h₁ h₂ hlen
          rw [ih f₂' rest (by omega) (by omega)]

theorem citeMatchesF_fuel : ∀ (f₁ : Nat) (f₂ : Nat) (l : List Char),
    l.length ≤ f₁ → l.length ≤ f₂ → citeMatchesF f₁ l = citeMatchesF f₂ l := by
  intro f₁
  induction f₁ with
  | zero =>
    intro f₂ l h₁ _
    have : l = [] := List.eq_nil_of_length_eq_zero (Nat.le_zero.mp h₁)
    subst this
    cases f₂ <;> rfl
  | succ f ih =>
    intro f₂ l h₁ h₂
    cases l with
    | nil => cases f₂ <;> rfl
    | cons c cs =>
      cases f₂ with
      | zero => simp at h₂
      | succ f₂' =>
        simp only [citeMatchesF]
        cases hct : citeTry (c :: cs) with
        | none =>
          dsimp only
          rw [ih f₂' cs (by simp at h₁; omega) (by simp at h₂; omega)]
        | some p =>
          rcases p with ⟨n, rest⟩
          dsimp only
          have hlen := citeTry_length hct
          simp only [List.length_cons] at h₁ h₂ hlen
          rw [ih f₂' rest (by omega) (by omega)]

theorem bracketFindallF_fuel : ∀ (f₁ : Nat) (f₂ : Nat) (l : List Char),
    l.length ≤ f₁ → l.length ≤ f₂ → bracketFindallF f₁ l = bracketFindallF f₂ l := by
  intro f₁
  induction f₁ with
  | zero =>
    intro f₂ l h₁ _
    have : l = [] := List.eq_nil_of_length_eq_zero (Nat.le_zero.mp h₁)
    subst this
    cases f₂ <;> rfl
  | succ f ih =>
    intro f₂ l h₁ h₂
    cases l with
    | nil => cases f₂ <;> rfl
    | cons c cs =>
      cases f₂ with
      | zero => simp at h₂
      | succ f₂' =>
        simp only [bracketFindallF]
        cases hct : brTry (c :: cs) with
        | none =>
          dsimp only
          rw [ih f₂' cs (by simp at h₁; omega) (by simp at h₂; omega)]
        | some p =>
          rcases p with ⟨n, rest⟩
          dsimp only
          have hlen := brTry_length hct
          simp only [List.length_cons] at h₁ h₂ hlen
          rw [ih f₂' rest (by omega) (by omega)]

theorem citeSubst_cons_some {c : Char} {cs : List Char} {n : Nat} {rest : List Char}
    (m : Nat) (h : citeTry (c :: cs) = some (n, rest)) :
    citeSubst m (c :: cs) =
      (if 1 ≤ n ∧ n ≤ m then bracket n else []) ++ citeSubst m rest := by
  have hlen := citeTry_length h
  simp only [List.length_cons] at hlen
  show citeSubstF m (cs.length + 1) (c :: cs) = _
  simp only [citeSubstF, h]
  rw [citeSubstF_fuel m cs.length rest.length rest (by omega) le_rfl]
  rfl

theorem citeSubst_cons_none {c : Char} {cs : List Char}
    (m : Nat) (h : citeTry (c :: cs) = none) :
    citeSubst m (c :: cs) = c :: citeSubst m cs := by
  show citeSubstF m (cs.length + 1) (c :: cs) = _
  simp only [citeSubstF, h]
  rfl

theorem citeMatches_cons_some {c : Char} {cs : List Char} {n : Nat} {rest : List Char}
    (h : citeTry (c :: cs) = some (n, rest)) :
    citeMatches (c :: cs) = n :: citeMatches rest := by
  have hlen := citeTry_length h
  simp only [List.length_cons] at hlen
  show citeMatchesF (cs.length + 1) (c :: cs) = _
  simp only [citeMatchesF, h]
  rw [citeMatchesF_fuel cs.length rest.length rest (by omega) le_rfl]
  rfl

theorem citeMatches_cons_none {c : Char} {cs : List Char}
    (h : citeTry (c :: cs) = none) :
    citeMatches (c :: cs) = citeMatches cs := by
  show citeMatchesF (cs.length + 1) (c :: cs) = _
  simp only [citeMatchesF, h]
  exact citeMatchesF_fuel cs.length cs.length cs le_rfl le_rfl

/-- Characters other than braces are copied verbatim by the substitution. -/
theorem citeSubst_copy (m : Nat) : ∀ (pre l : List Char), (∀ c ∈ pre, c ≠ '{') →
    citeSubst m (pre ++ l) = pre ++ citeSubst m l := by
  intro pre
  induction pre with
  | nil => simp
  | cons c pre ih =>
    intro l hpre
    have hc : c ≠ '{' := hpre c (by simp)
    rw [List.cons_append, citeSubst_cons_none m (citeTry_not_brace _ hc),
      ih l (fun x hx => hpre x (by simp [hx]))]
    simp

/-- If a string contains no placeholder match, the substitution is the
identity on it. -/
theorem citeSubst_of_no_matches (m : Nat) : ∀ (n : Nat) (l : List Char), l.length ≤ n →
    citeMatches l = [] → citeSubst m l = l := by
  intro n
  induction n with
  | zero =>
    intro l hl _
    have : l = [] := List.eq_nil_of_length_eq_zero (Nat.le_zero.mp hl)
    subst this
    rfl
  | succ n ih =>
    intro l hl hm
    cases l with
    | nil => rfl
    | cons c cs =>
      cases hct : citeTry (c :: cs) with
      | some p =>
        rcases p with ⟨k, rest⟩
        rw [citeMatches_cons_some hct] at hm
        simp at hm
      | none =>
        rw [citeMatches_cons_none hct] at hm
        rw [citeSubst_cons_none m hct, ih cs (by simp at hl; omega) hm]

/-! ## Citation normalization (`normalize_draft_citations`, `citations.py:15-47`) -/

/-- The in-range bracketed indices of a normalized content string
(`cited_indices` at `citations.py:42-44`). -/
def citedIndices (maxIdx : Nat) (content : List Char) : List Nat :=
  (bracketFindall content).filter (fun n => decide (1 ≤ n ∧ n ≤ maxIdx))

/-- Insert into a strictly sorted list, dropping duplicates. -/
def insertSorted (x : Nat) : List Nat → List Nat
  | [] => [x]
  | y :: ys =>
    if x < y then x :: y :: ys
    else if x = y then y :: ys
    else y :: insertSorted x ys

/-- Python's `sorted(set(l))`. -/
def sortedDedup (l : List Nat) : List Nat := l.foldr insertSorted []

/-- The dictionary `index_to_id = \x7bi + 1: p.paper_id\x7d` built at
`citations.py:29` (1-based lookup into the paper list). -/
def indexToId (papers : List PaperMetadata) (i : Nat) : Option String :=
  (papers[i - 1]?).map PaperMetadata.paper_id

/-- Per-section body of `normalize_draft_citations`. -/
def normalizeSection (papers : List PaperMetadata) (s : ReviewSection) : ReviewSection :=
  let maxIdx := papers.length
  let content := citeSubst maxIdx s.content
  { s with
    content := content
    cited_paper_ids := (sortedDedup (citedIndices maxIdx content)).filterMap (indexToId papers) }

/-- `normalize_draft_citations(draft, approved_papers)`:  replaces in-range
placeholders by `[N]`, deletes out-of-range ones, and recomputes each
section's `cited_paper_ids` from the normalized content. -/
def normalize_draft_citations (draft : DraftOutput)
    (approved_papers : List PaperMetadata) : DraftOutput :=
  { draft with sections := draft.sections.map (normalizeSection approved_papers) }

theorem mem_insertSorted (a x : Nat) : ∀ l : List Nat,
    (a ∈ insertSorted x l ↔ a = x ∨ a ∈ l) := by
  intro l
  induction l with
  | nil => simp [insertSorted]
  | cons y ys ih =>
    by_cases h1 : x < y
    · simp [insertSorted, h1]
    · by_cases h2 : x = y
      · subst h2
        simp [insertSorted, h1]
      · simp [insertSorted, h1, h2, ih]
        tauto

theorem sorted_insertSorted (x : Nat) : ∀ l : List Nat,
    List.Sorted (· < ·) l → List.Sorted (· < ·) (insertSorted x l) := by
  intro l
  induction l with
  | nil => intro _; simp [insertSorted]
  | cons y ys ih =>
    intro hs
    rw [List.sorted_cons] at hs
    by_cases h1 : x < y
    · simp only [insertSorted, if_pos h1]
      rw [List.sorted_cons]
      constructor
      · intro b hb
        rcases List.mem_cons.mp hb with rfl | hb
        · exact h1
        · exact h1.trans (hs.1 b hb)
      · exact List.sorted_cons.mpr hs
    · by_cases h2 : x = y
      · simp only [insertSorted, if_neg h1, if_pos h2]
        exact List.sorted_cons.mpr hs
      · simp only [insertSorted, if_neg h1, if_neg h2]
        rw [List.sorted_cons]
        constructor
        · intro b hb
          rcases (mem_insertSorted b x ys).mp hb with rfl | hb
          · omega
          · exact hs.1 b hb
        · exact ih hs.2

theorem sorted_sortedDedup (l : List Nat) : List.Sorted (· < ·) (sortedDedup l) := by
  induction l with
  | nil => simp [sortedDedup]
  | cons x xs ih => exact sorted_insertSorted x _ ih

theorem mem_sortedDedup (a : Nat) : ∀ l : List Nat, (a ∈ sortedDedup l ↔ a ∈ l) := by
  intro l
  induction l with
  | nil => simp [sortedDedup]
  | cons x xs ih =>
    show a ∈ insertSorted x (sortedDedup xs) ↔ _
    rw [mem_insertSorted, ih]
    simp

theorem map_eq_self_of_fix {α : Type} (f : α → α) : ∀ l : List α,
    (∀ x ∈ l, f x = x) → l.map f = l := by
  intro l
  induction l with
  | nil => intro _; rfl
  | cons x xs ih =>
    intro h
    rw [List.map_cons, h x (by simp), ih (fun y hy => h y (by simp [hy]))]

/-- Renormalizing a section is the identity once its normalized content
contains no placeholder match. -/
theorem normalizeSection_fix (papers : List PaperMetadata) (s : ReviewSection)
    (h : citeMatches (normalizeSection papers s).content = []) :
    normalizeSection papers (normalizeSection papers s) = normalizeSection papers s := by
  have hc : citeSubst papers.length (citeSubst papers.length s.content)
      = citeSubst papers.length s.content :=
    citeSubst_of_no_matches papers.length (citeSubst papers.length s.content).length _ le_rfl h
  unfold normalizeSection
  dsimp only
  rw [hc]

/-- Claim C5 (amended).  Citation normalization is idempotent on every draft
whose once-normalized sections contain no residual placeholder (deleting an
out-of-range placeholder can splice a new placeholder out of the surrounding
text, so this hypothesis is needed); and for every draft, each normalized
section's `cited_paper_ids` equals the sorted unique set of in-range
bracketed indices of its normalized content, mapped through the index→id
mapping. -/
theorem normalize_citations_idempotent_when_no_residual_placeholder
    (papers : List PaperMetadata) (draft : DraftOutput) :
    ((∀ s ∈ (normalize_draft_citations draft papers).sections,
        citeMatches s.content = []) →
      normalize_draft_citations (normalize_draft_citations draft papers) papers =
        normalize_draft_citations draft papers) ∧
    ∀ s ∈ (normalize_draft_citations draft papers).sections,
      ∃ u : List Nat, List.Sorted (· < ·) u ∧
        (∀ k, k ∈ u ↔ k ∈ bracketFindall s.content ∧ 1 ≤ k ∧ k ≤ papers.length) ∧
        s.cited_paper_ids = u.filterMap (indexToId papers) := by
  constructor
  · intro h
    show ({ draft with sections := _ } : DraftOutput) = _
    unfold normalize_draft_citations
    congr 1
    apply map_eq_self_of_fix
    intro x hx
    obtain ⟨y, hy, rfl⟩ := List.mem_map.mp hx
    exact normalizeSection_fix papers y (h _ hx)
  · intro s hs
    replace hs : s ∈ draft.sections.map (normalizeSection papers) := hs
    obtain ⟨y, hy, rfl⟩ := List.mem_map.mp hs
    refine ⟨sortedDedup (citedIndices papers.length (citeSubst papers.length y.content)),
      sorted_sortedDedup _, ?_, rfl⟩
    intro k
    rw [mem_sortedDedup]
    unfold citedIndices
    rw [List.mem_filter]
    constructor
    · rintro ⟨hmem, hdec⟩
      exact ⟨hmem, of_decide_eq_true hdec⟩
    · rintro ⟨hmem, hr⟩
      exact ⟨hmem, decide_eq_true hr⟩

/-- Concrete inputs on which normalization is *not* idempotent: deleting the
out-of-range inner placeholder splices a new placeholder out of the
surrounding text, and the pre-existing bracketed index 5 survives although
only index 1 is in range. -/
def c5Papers : List PaperMetadata :=
  [⟨"p1", "T1", true, some "c"⟩]

def c5Draft : DraftOutput :=
  ⟨"T", [⟨"S",
    ['[', '5', ']', '{', 'c', 'i', 't', 'e', ':',
     '{', 'c', 'i', 't', 'e', ':', '0', '}', '1', '}'], []⟩]⟩

/-- Claim C5, counterexample.  On `c5Draft` (one section, content
`[5]{cite:{cite:0}1}`) with one paper, one application of
`normalize_draft_citations` yields content `[5]{cite:1}` while a second
application yields `[5][1]`, so normalization as claimed (idempotent, with
every bracketed index in range) is false. -/
theorem normalize_citations_not_idempotent :
    normalize_draft_citations (normalize_draft_citations c5Draft c5Papers) c5Papers ≠
      normalize_draft_citations c5Draft c5Papers ∧
    ∃ s ∈ (normalize_draft_citations c5Draft c5Papers).sections,
      ∃ k ∈ bracketFindall s.content, c5Papers.length < k := by
  decide

def c5wDraft : DraftOutput :=
  ⟨"T", [⟨"S", ['h', 'i', ' ', '{', 'c', 'i', 't', 'e', ':', '1', '}'], []⟩]⟩

/-- Witness for the amended claim C5 at a concrete draft. -/
theorem normalize_citations_idempotent_witness :
    normalize_draft_citations (normalize_draft_citations c5wDraft c5Papers) c5Papers =
      normalize_draft_citations c5wDraft c5Papers :=
  (normalize_citations_idempotent_when_no_residual_placeholder c5Papers c5wDraft).1 (by decide)

/-- Claim C10.  Out-of-range placeholders are deleted (replaced by the empty
string) during normalization and in-range ones are rendered as `[n]`; an
out-of-range index can never enter `cited_indices` (and hence never
contributes to `cited_paper_ids`), because `cited_indices` keeps only
in-range bracketed numbers. -/
theorem out_of_range_placeholders_deleted
    (maxIdx : Nat) (pre ds post : List Char)
    (hpre : ∀ c ∈ pre, c ≠ '{') (hne : ds ≠ []) (hdig : ∀ c ∈ ds, c.isDigit) :
    citeSubst maxIdx (pre ++ (citeOpen ++ (ds ++ '}' :: post))) =
      pre ++ ((if 1 ≤ natOfDigits ds ∧ natOfDigits ds ≤ maxIdx
          then bracket (natOfDigits ds) else []) ++ citeSubst maxIdx post) ∧
    (∀ content k, k ∈ citedIndices maxIdx content → 1 ≤ k ∧ k ≤ maxIdx) := by
  constructor
  · rw [citeSubst_copy maxIdx pre _ hpre]
    congr 1
    have hc := citeTry_complete ds post hne hdig
    rw [show citeOpen ++ (ds ++ '}' :: post) =
        '{' :: ('c' :: 'i' :: 't' :: 'e' :: ':' :: (ds ++ '}' :: post)) from rfl] at hc ⊢
    rw [citeSubst_cons_some maxIdx hc]
  · intro content k hk
    exact of_decide_eq_true (List.mem_filter.mp hk).2

/-- Witness for claim C10 at a concrete out-of-range placeholder: in `x{cite:7}y`
with 2 papers, the placeholder is deleted and only `x` and `y` remain. -/
theorem out_of_range_placeholders_deleted_witness :
    citeSubst 2 (['x'] ++ (citeOpen ++ (['7'] ++ '}' :: ['y']))) =
      ['x'] ++ ((if 1 ≤ natOfDigits ['7'] ∧ natOfDigits ['7'] ≤ 2
          then bracket (natOfDigits ['7']) else []) ++ citeSubst 2 ['y']) :=
  (out_of_range_placeholders_deleted 2 ['x'] ['7'] ['y']
    (by decide) (by decide) (by decide)).1

/-! ## Research plan, keyword prioritization and the writer's paper context
(`backend/nodes.py`) -/

structure SubQuestion where
  keywords : List String
  priority : Nat
deriving DecidableEq, Repr

structure ResearchPlan where
  sub_questions : List SubQuestion
deriving DecidableEq, Repr

/-- Python's substring test `needle in hay`. -/
def isSubstr (needle : List Char) : List Char → Bool
  | [] => needle.isEmpty
  | c :: t => needle.isPrefixOf (c :: t) || isSubstr needle t

/-- Keyword score of a paper (`_find_best_keyword_match.score`,
`nodes.py:429-431`): the number of (lowercased) keywords occurring in the
lowercased title. -/
def kwScore (keywords : List String) (p : PaperMetadata) : Nat :=
  (keywords.map (fun k => k.data.map Char.toLower)).countP
    (fun kw => isSubstr kw (p.title.data.map Char.toLower))

/-- First element attaining the maximal value of `f`, scanning left to right
(the head of Python's stable `sorted(..., reverse := True)`). -/
def argmaxFirst {α : Type} (f : α → Nat) : α → List α → α
  | best, [] => best
  | best, x :: xs => if f best < f x then argmaxFirst f x xs else argmaxFirst f best xs

/-- `_find_best_keyword_match` (`nodes.py:421-435`). -/
def find_best_keyword_match (papers : List PaperMetadata) (keywords : List String) :
    Option PaperMetadata :=
  match papers with
  | [] => none
  | p :: ps =>
    if keywords.isEmpty then none
    else
      let best := argmaxFirst (kwScore keywords) p ps
      if 0 < kwScore keywords best then some best else some p

/-- Stable insertion into a list sorted by ascending priority. -/
def insertSQ (x : SubQuestion) : List SubQuestion → List SubQuestion
  | [] => [x]
  | y :: ys => if y.priority < x.priority then y :: insertSQ x ys else x :: y :: ys

/-- Python's stable `sorted(sub_questions, key priority)`. -/
def sortSQ : List SubQuestion → List SubQuestion
  | [] => []
  | x :: xs => insertSQ x (sortSQ xs)

/-- The reserve loop of `_prioritize_by_sub_questions` (`nodes.py:409-417`). -/
def prioritizeLoop : List SubQuestion → List PaperMetadata → List PaperMetadata →
    List PaperMetadata × List PaperMetadata
  | [], reserved, remaining => (reserved, remaining)
  | sq :: sqs, reserved, remaining =>
    match find_best_keyword_match remaining sq.keywords with
    | some best => prioritizeLoop sqs (reserved ++ [best]) (remaining.erase best)
    | none => prioritizeLoop sqs reserved remaining

/-- `_prioritize_by_sub_questions` (`nodes.py:405-418`). -/
def prioritize_by_sub_questions (papers : List PaperMetadata)
    (plan : ResearchPlan) : List PaperMetadata :=
  (prioritizeLoop (sortSQ plan.sub_questions) [] papers).1 ++
    (prioritizeLoop (sortSQ plan.sub_questions) [] papers).2

/-- The plan-conditional reorder step of `_build_paper_context`
(`nodes.py:461-462`). -/
def prioritizeOpt (plan : Option ResearchPlan) (papers : List PaperMetadata) :
    List PaperMetadata :=
  match plan with
  | some pl =>
    if pl.sub_questions.isEmpty then papers else prioritize_by_sub_questions papers pl
  | none => papers

/-- The budget-fill loop of `_build_paper_context` (`nodes.py:464-478`):
`started` records whether `selected` is non-empty.  The per-paper token
estimator is a parameter — `_estimate_paper_tokens` computes
`max(int(words * 1.3), 20)` with float arithmetic, which the claims quantify
over rather than fix. -/
def contextSelectGo (est : PaperMetadata → Nat) (budget : Nat) :
    Nat → Bool → List PaperMetadata → List PaperMetadata
  | _, _, [] => []
  | tok, started, p :: ps =>
    if budget < tok + est p ∧ started then []
    else p :: contextSelectGo est budget (tok + est p) true ps

def contextSelect (est : PaperMetadata → Nat) (budget : Nat)
    (papers : List PaperMetadata) : List PaperMetadata :=
  contextSelectGo est budget 0 false papers

/-- Python's `enumerate(selected, 1)` (`nodes.py:481`). -/
def numberEntries {α : Type} : Nat → List α → List (Nat × α)
  | _, [] => []
  | i, x :: xs => (i, x) :: numberEntries (i + 1) xs

/-- `_build_paper_context` (`nodes.py:438-511`), modelled as the list of
numbered entries it renders (the text layout of each entry adds nothing the
claims speak about).  Order of operations as in the source: empty guard,
hard truncation at `CONTEXT_MAX_PAPERS`, plan prioritization, budget fill,
numbering from 1. -/
def build_paper_context (est : PaperMetadata → Nat) (plan : Option ResearchPlan)
    (token_budget : Nat) (papers : List PaperMetadata) : List (Nat × PaperMetadata) :=
  if papers.isEmpty then []
  else
    numberEntries 1 (contextSelect est token_budget
      (prioritizeOpt plan
        (if CONTEXT_MAX_PAPERS < papers.length then papers.take CONTEXT_MAX_PAPERS
         else papers)))

/-- The overflow warning emitted at `nodes.py:446-451`. -/
def build_paper_context_warns (papers : List PaperMetadata) : Prop :=
  CONTEXT_OVERFLOW_WARNING_THRESHOLD < papers.length

/-- The state fields the writer reads (`AgentState`, `backend/state.py`). -/
structure AgentState where
  approved_papers : List PaperMetadata
  selected_papers : List PaperMetadata
  research_plan : Option ResearchPlan
deriving DecidableEq, Repr

/-- Python truthiness of an optional string (`if p.core_contribution`). -/
def truthyStr : Option String → Bool
  | none => false
  | some s => !s.isEmpty

/-- `papers_with_contributions` (`nodes.py:593-594`): the writer filters
`approved_papers`, not `selected_papers`. -/
def writer_pool (st : AgentState) : List PaperMetadata :=
  st.approved_papers.filter (fun p => truthyStr p.core_contribution)

/-- `num_papers` (`nodes.py:617`), the bound the writer checks `cite` indices
against (`nodes.py:737`). -/
def writer_num_papers (st : AgentState) : Nat := (writer_pool st).length

/-- The numbered paper context the writer builds (`nodes.py:609-612`). -/
def writer_paper_context (est : PaperMetadata → Nat) (st : AgentState) :
    List (Nat × PaperMetadata) :=
  build_paper_context est st.research_plan CONTEXT_TOKEN_BUDGET (writer_pool st)

/-- `out_of_bounds` (`nodes.py:732-737`): distinct placeholder indices of the
draft outside `1..num_papers`. -/
def writer_out_of_bounds (st : AgentState) (draft : DraftOutput) : List Nat :=
  (sortedDedup (draft.sections.flatMap (fun s => citeMatches s.content))).filter
    (fun i => decide (i < 1 ∨ writer_num_papers st < i))

/-! ### Context-builder lemmas -/

def sumEst (est : PaperMetadata → Nat) (l : List PaperMetadata) : Nat := (l.map est).sum

theorem sumEst_nil (est : PaperMetadata → Nat) : sumEst est [] = 0 := rfl

theorem sumEst_cons (est : PaperMetadata → Nat) (p : PaperMetadata) (l : List PaperMetadata) :
    sumEst est (p :: l) = est p + sumEst est l := by
  simp [sumEst]

theorem numberEntries_map_fst {α : Type} : ∀ (i : Nat) (l : List α),
    (numberEntries i l).map Prod.fst = List.range' i l.length := by
  intro i l
  induction l generalizing i with
  | nil => simp [numberEntries]
  | cons x xs ih => simp [numberEntries, List.range', ih]

theorem numberEntries_length {α : Type} : ∀ (i : Nat) (l : List α),
    (numberEntries i l).length = l.length := by
  intro i l
  induction l generalizing i with
  | nil => rfl
  | cons x xs ih => simp [numberEntries, ih]

theorem numberEntries_map_snd {α : Type} : ∀ (i : Nat) (l : List α),
    (numberEntries i l).map Prod.snd = l := by
  intro i l
  induction l generalizing i with
  | nil => simp [numberEntries]
  | cons x xs ih => simp [numberEntries, ih]

theorem argmaxFirst_mem {α : Type} (f : α → Nat) : ∀ (l : List α) (best : α),
    argmaxFirst f best l = best ∨ argmaxFirst f best l ∈ l := by
  intro l
  induction l with
  | nil => intro best; left; rfl
  | cons x xs ih =>
    intro best
    by_cases h : f best < f x
    · simp only [argmaxFirst, if_pos h]
      rcases ih x with h' | h'
      · right; simp [h']
      · right; simp [h']
    · simp only [argmaxFirst, if_neg h]
      rcases ih best with h' | h'
      · left; exact h'
      · right; simp [h']

theorem find_best_keyword_match_mem {papers : List PaperMetadata}
    {keywords : List String} {b : PaperMetadata}
    (h : find_best_keyword_match papers keywords = some b) : b ∈ papers := by
  cases papers with
  | nil => simp [find_best_keyword_match] at h
  | cons p ps =>
    unfold find_best_keyword_match at h
    dsimp only at h
    by_cases hk : keywords.isEmpty
    · rw [if_pos hk] at h; simp at h
    · rw [if_neg hk] at h
      by_cases hs : 0 < kwScore keywords (argmaxFirst (kwScore keywords) p ps)
      · rw [if_pos hs] at h
        obtain rfl : argmaxFirst (kwScore keywords) p ps = b := by
          injection h
        rcases argmaxFirst_mem (kwScore keywords) ps p with h' | h'
        · rw [h']; simp
        · simp [h']
      · rw [if_neg hs] at h
        obtain rfl : p = b := by injection h
        simp

theorem prioritizeLoop_length : ∀ (sqs : List SubQuestion)
    (res rem : List PaperMetadata),
    ((prioritizeLoop sqs res rem).1).length + ((prioritizeLoop sqs res rem).2).length =
      res.length + rem.length := by
  intro sqs
  induction sqs with
  | nil => intro res rem; rfl
  | cons sq sqs ih =>
    intro res rem
    show (prioritizeLoop (sq :: sqs) res rem).1.length + _ = _
    unfold prioritizeLoop
    cases hfb : find_best_keyword_match rem sq.keywords with
    | none => exact ih res rem
    | some best =>
      have hmem := find_best_keyword_match_mem hfb
      have hpos : 0 < rem.length := List.length_pos.mpr (by
        intro hnil; rw [hnil] at hmem; simp at hmem)
      have := ih (res ++ [best]) (rem.erase best)
      rw [this, List.length_append, List.length_erase_of_mem hmem]
      simp
      omega

theorem prioritize_length (papers : List PaperMetadata) (pl : ResearchPlan) :
    (prioritize_by_sub_questions papers pl).length = papers.length := by
  unfold prioritize_by_sub_questions
  rw [List.length_append, prioritizeLoop_length]
  simp

theorem prioritizeOpt_length (plan : Option ResearchPlan) (papers : List PaperMetadata) :
    (prioritizeOpt plan papers).length = papers.length := by
  cases plan with
  | none => rfl
  | some pl =>
    unfold prioritizeOpt
    dsimp only
    by_cases h : pl.sub_questions.isEmpty
    · rw [if_pos h]
    · rw [if_neg h, prioritize_length]

theorem contextSelectGo_prefix (est : PaperMetadata → Nat) (b : Nat) :
    ∀ (l : List PaperMetadata) (tok : Nat) (started : Bool),
    contextSelectGo est b tok started l <+: l := by
  intro l
  induction l with
  | nil => intro tok started; simp [contextSelectGo]
  | cons p ps ih =>
    intro tok started
    by_cases h : b < tok + est p ∧ started
    · simp [contextSelectGo, h]
    · simp only [contextSelectGo, if_neg h]
      exact (List.prefix_cons_inj p).mpr (ih _ _)

theorem contextSelectGo_true_over (est : PaperMetadata → Nat) (b : Nat)
    (l : List PaperMetadata) (tok : Nat) (h : b < tok) :
    contextSelectGo est b tok true l = [] := by
  cases l with
  | nil => rfl
  | cons p ps =>
    have hc : b < tok + est p ∧ (true : Bool) = true := ⟨by omega, rfl⟩
    simp [contextSelectGo, hc]

theorem contextSelectGo_true_cons (est : PaperMetadata → Nat) (b tok : Nat)
    (p : PaperMetadata) (ps : List PaperMetadata) :
    contextSelectGo est b tok true (p :: ps) =
      if b < tok + est p then [] else p :: contextSelectGo est b (tok + est p) true ps := by
  simp [contextSelectGo]

theorem contextSelectGo_true_spec (est : PaperMetadata → Nat) (b : Nat) :
    ∀ (l : List PaperMetadata) (tok : Nat), tok ≤ b →
    tok + sumEst est (contextSelectGo est b tok true l) ≤ b ∧
    ((contextSelectGo est b tok true l).length < l.length →
      b < tok + sumEst est (l.take ((contextSelectGo est b tok true l).length + 1))) := by
  intro l
  induction l with
  | nil =>
    intro tok htok
    constructor
    · simpa [contextSelectGo, sumEst] using htok
    · intro hlt; simp [contextSelectGo] at hlt
  | cons p ps ih =>
    intro tok htok
    rw [contextSelectGo_true_cons]
    by_cases hc : b < tok + est p
    · rw [if_pos hc]
      refine ⟨by simpa [sumEst] using htok, ?_⟩
      intro _
      show b < tok + sumEst est [p]
      rw [sumEst_cons, sumEst_nil]
      omega
    · rw [if_neg hc]
      have hle : tok + est p ≤ b := by omega
      obtain ⟨ih1, ih2⟩ := ih (tok + est p) hle
      constructor
      · rw [sumEst_cons]; omega
      · intro hlt
        simp only [List.length_cons, Nat.add_lt_add_iff_right] at hlt
        have := ih2 hlt
        simp only [List.length_cons, List.take_succ_cons, sumEst_cons]
        omega

theorem contextSelect_cons (est : PaperMetadata → Nat) (b : Nat)
    (p : PaperMetadata) (ps : List PaperMetadata) :
    contextSelect est b (p :: ps) = p :: contextSelectGo est b (est p) true ps := by
  show contextSelectGo est b 0 false (p :: ps) = _
  conv_lhs => rw [contextSelectGo.eq_def]
  dsimp only
  rw [if_neg (by simp), Nat.zero_add]

/-- Claim C8.  Given a non-empty paper list, writing the prioritized,
truncated list as `p₀ :: rest`: the papers included in the context are the
budget-fill selection applied to that list; the selection is a non-empty
prefix of it; if the first paper's estimate alone exceeds the 40000-token
budget exactly one paper is included; otherwise the selection's total
estimate fits the budget and is maximal — any longer prefix would exceed
the budget. -/
theorem context_budget_maximal_prefix_min_one
    (est : PaperMetadata → Nat) (plan : Option ResearchPlan)
    (papers : List PaperMetadata) (hne : papers ≠ [])
    (p₀ : PaperMetadata) (rest : List PaperMetadata)
    (hsplit : prioritizeOpt plan
      (if CONTEXT_MAX_PAPERS < papers.length then papers.take CONTEXT_MAX_PAPERS
       else papers) = p₀ :: rest) :
    (build_paper_context est plan CONTEXT_TOKEN_BUDGET papers).map Prod.snd =
        contextSelect est CONTEXT_TOKEN_BUDGET (p₀ :: rest) ∧
    contextSelect est CONTEXT_TOKEN_BUDGET (p₀ :: rest) <+: (p₀ :: rest) ∧
    contextSelect est CONTEXT_TOKEN_BUDGET (p₀ :: rest) ≠ [] ∧
    (CONTEXT_TOKEN_BUDGET < est p₀ →
      contextSelect est CONTEXT_TOKEN_BUDGET (p₀ :: rest) = [p₀]) ∧
    (est p₀ ≤ CONTEXT_TOKEN_BUDGET →
      sumEst est (contextSelect est CONTEXT_TOKEN_BUDGET (p₀ :: rest)) ≤
          CONTEXT_TOKEN_BUDGET ∧
      ((contextSelect est CONTEXT_TOKEN_BUDGET (p₀ :: rest)).length <
          (p₀ :: rest).length →
        CONTEXT_TOKEN_BUDGET < sumEst est ((p₀ :: rest).take
          ((contextSelect est CONTEXT_TOKEN_BUDGET (p₀ :: rest)).length + 1)))) := by
  refine ⟨?_, ?_, ?_, ?_, ?_⟩
  · unfold build_paper_context
    rw [if_neg (by simpa [List.isEmpty_iff] using hne), hsplit, numberEntries_map_snd]
  · exact contextSelectGo_prefix est CONTEXT_TOKEN_BUDGET _ 0 false
  · rw [contextSelect_cons]; simp
  · intro hover
    rw [contextSelect_cons, contextSelectGo_true_over est _ rest (est p₀) hover]
  · intro hfit
    rw [contextSelect_cons]
    obtain ⟨h1, h2⟩ := contextSelectGo_true_spec est CONTEXT_TOKEN_BUDGET rest (est p₀) hfit
    constructor
    · rw [sumEst_cons]; omega
    · intro hlt
      simp only [List.length_cons, Nat.add_lt_add_iff_right] at hlt
      have := h2 hlt
      simp only [List.length_cons, List.take_succ_cons, sumEst_cons]
      omega

def c8Paper : PaperMetadata := ⟨"p8", "T8", true, some "c8"⟩

/-- Witness for claim C8 at a one-paper list with a constant estimator. -/
theorem context_budget_maximal_prefix_min_one_witness :
    (build_paper_context (fun _ => 20) none CONTEXT_TOKEN_BUDGET [c8Paper]).map Prod.snd =
      contextSelect (fun _ => 20) CONTEXT_TOKEN_BUDGET [c8Paper] :=
  (context_budget_maximal_prefix_min_one (fun _ => 20) none [c8Paper]
    (by decide) c8Paper [] (by decide)).1

/-- Claim C1 (amended).  The writer's numbered context is built from
`approved_papers` restricted to papers with a truthy `core_contribution`
(the writer does not read `selected_papers`): the rendered entries are that
pool hard-truncated at `CONTEXT_MAX_PAPERS` (= 200), prioritized by the
plan, budget-filled, and numbered `1..k`; the `cite` range it checks is the
length of that pool — a draft index is flagged out of bounds exactly when it
is cited and outside `1..pool length`; and the overflow warning fires
exactly when the pool exceeds `CONTEXT_OVERFLOW_WARNING_THRESHOLD` (= 100)
papers. -/
theorem writer_context_from_approved_with_contributions
    (est : PaperMetadata → Nat) (st : AgentState) (h : writer_pool st ≠ []) :
    writer_paper_context est st =
      numberEntries 1 (contextSelect est CONTEXT_TOKEN_BUDGET
        (prioritizeOpt st.research_plan ((writer_pool st).take CONTEXT_MAX_PAPERS))) ∧
    (writer_paper_context est st).map Prod.fst =
      List.range' 1 (writer_paper_context est st).length ∧
    writer_num_papers st = (writer_pool st).length ∧
    (prioritizeOpt st.research_plan ((writer_pool st).take CONTEXT_MAX_PAPERS)).length ≤
      CONTEXT_MAX_PAPERS ∧
    (build_paper_context_warns (writer_pool st) ↔
      CONTEXT_OVERFLOW_WARNING_THRESHOLD < (writer_pool st).length) ∧
    (∀ (draft : DraftOutput) (idx : Nat),
      idx ∈ writer_out_of_bounds st draft ↔
        idx ∈ draft.sections.flatMap (fun s => citeMatches s.content) ∧
          (idx < 1 ∨ (writer_pool st).length < idx)) := by
  have hctx : writer_paper_context est st =
      numberEntries 1 (contextSelect est CONTEXT_TOKEN_BUDGET
        (prioritizeOpt st.research_plan ((writer_pool st).take CONTEXT_MAX_PAPERS))) := by
    unfold writer_paper_context build_paper_context
    rw [if_neg (by simpa [List.isEmpty_iff] using h)]
    congr 3
    by_cases hlen : CONTEXT_MAX_PAPERS < (writer_pool st).length
    · rw [if_pos hlen]
    · rw [if_neg hlen, List.take_of_length_le (by omega)]
  refine ⟨hctx, ?_, rfl, ?_, Iff.rfl, ?_⟩
  · rw [hctx, numberEntries_map_fst, numberEntries_length]
  · rw [prioritizeOpt_length]
    have := List.length_take CONTEXT_MAX_PAPERS (writer_pool st)
    omega
  · intro draft idx
    unfold writer_out_of_bounds
    rw [List.mem_filter, mem_sortedDedup]
    constructor
    · rintro ⟨h1, h2⟩
      exact ⟨h1, by simpa [writer_num_papers] using h2⟩
    · rintro ⟨h1, h2⟩
      exact ⟨h1, by simpa [writer_num_papers] using h2⟩

def c1A : PaperMetadata := ⟨"a", "TA", true, some "ca"⟩

def c1B : PaperMetadata := ⟨"b", "TB", true, some "cb"⟩

def c1C : PaperMetadata := ⟨"c", "TC", true, some "cc"⟩

def c1State : AgentState := ⟨[c1A, c1B], [c1C], none⟩

/-- Claim C1, counterexample.  A state whose `selected_papers` (`[c1C]`, the
non-empty extracted set) differs from its `approved_papers` (`[c1A, c1B]`,
both carrying contributions): the writer renders `[1] c1A, [2] c1B` — not
the selected papers — and checks `cite` indices against 2, not against
`|selected_papers| = 1`. -/
theorem writer_context_ignores_selected_papers :
    c1State.selected_papers ≠ [] ∧
    (writer_paper_context (fun _ => 20) c1State).map Prod.snd ≠
      c1State.selected_papers ∧
    writer_num_papers c1State ≠ c1State.selected_papers.length := by
  decide

/-- Witness for the amended claim C1 at a concrete state. -/
theorem writer_context_from_approved_witness :
    writer_num_papers c1State = (writer_pool c1State).length :=
  (writer_context_from_approved_with_contributions (fun _ => 20) c1State
    (by decide)).2.2.1

/-! ## Critic rule checks (`critic_agent`, `nodes.py:762-872`)

The error strings are modelled by a structured type recording the data each
format string interpolates; section numbers are 1-based as in the source. -/

inductive CriticErr where
  | halluc (sec idx : Nat)
  | noCitations (sec : Nat)
  | missingPaper (idx : Nat)
deriving DecidableEq, Repr

/-- Section number carried by an error (`missingPaper` errors carry none and
get 0, below any real 1-based section number). -/
def errSec : CriticErr → Nat
  | .halluc s _ => s
  | .noCitations s => s
  | .missingPaper _ => 0

/-- `cited_in_content` (`nodes.py:784`) — a Python set of indices, modelled
in ascending order. -/
def sectionCited (s : ReviewSection) : List Nat := sortedDedup (citeMatches s.content)

/-- The errors the loop body at `nodes.py:783-795` appends for one section:
one per distinct out-of-range index, then one if the section has no
citation placeholder at all. -/
def sectionErrors (numPapers : Nat) (secIdx : Nat) (s : ReviewSection) : List CriticErr :=
  ((sectionCited s).filter (fun i => decide (i < 1 ∨ numPapers < i))).map
    (fun i => CriticErr.halluc (secIdx + 1) i) ++
  (if citeMatches s.content = [] then [CriticErr.noCitations (secIdx + 1)] else [])

/-- All cited indices of the draft (`all_cited_indices`, as a list whose
membership is the set's membership). -/
def allCited (draft : DraftOutput) : List Nat :=
  draft.sections.flatMap (fun s => citeMatches s.content)

/-- The full rule-check error list of `critic_agent` (`nodes.py:778-799`):
per-section errors in section order, then one error per missing paper index
in ascending order. -/
def criticRuleErrors (numPapers : Nat) (draft : DraftOutput) : List CriticErr :=
  (numberEntries 0 draft.sections).flatMap
    (fun e => sectionErrors numPapers e.1 e.2) ++
  ((List.range' 1 numPapers).filter
    (fun i => decide (i ∉ allCited draft))).map CriticErr.missingPaper

/-- The critic's state inputs (`nodes.py:762-801`). -/
structure CriticState where
  final_draft : Option DraftOutput
  approved_papers : List PaperMetadata
  retry_count : Nat

/-- Outcome of the semantic verification stage (`nodes.py:815-856`),
abstracted over the LM: `skip` covers "verification disabled", "no approved
papers", "exception caught" and "entailment ratio above threshold"; `fail`
covers "ratio below threshold", carrying the up-to-three appended
failed-verification summaries. -/
inductive CriticSem where
  | skip
  | fail (extra : List CriticErr)

structure CriticOut where
  qa_errors : List CriticErr
  retry_count : Nat
deriving DecidableEq, Repr

/-- `critic_agent`: no draft → empty errors, `retry_count` untouched; any
rule error → errors written and `retry_count + 1`, semantic stage not
consulted; rule checks clean → semantic stage decides. -/
def critic_agent (sem : CriticSem) (st : CriticState) : CriticOut :=
  match st.final_draft with
  | none => ⟨[], st.retry_count⟩
  | some draft =>
    let errors := criticRuleErrors st.approved_papers.length draft
    if errors.isEmpty then
      match sem with
      | .skip => ⟨[], st.retry_count⟩
      | .fail extra => ⟨extra, st.retry_count + 1⟩
    else ⟨errors, st.retry_count + 1⟩

/-! ### Critic lemmas -/

theorem mem_sectionErrors_sec {numPapers secIdx : Nat} {s : ReviewSection}
    {e : CriticErr} (h : e ∈ sectionErrors numPapers secIdx s) :
    errSec e = secIdx + 1 := by
  unfold sectionErrors at h
  rcases List.mem_append.mp h with h | h
  · obtain ⟨i, _, rfl⟩ := List.mem_map.mp h
    rfl
  · by_cases hc : citeMatches s.content = []
    · rw [if_pos hc] at h
      simp at h
      subst h
      rfl
    · rw [if_neg hc] at h
      simp at h

theorem mem_entriesErrors_sec {numPapers : Nat} :
    ∀ (secs : List ReviewSection) (base : Nat) (e : CriticErr),
    e ∈ (numberEntries base secs).flatMap (fun x => sectionErrors numPapers x.1 x.2) →
    base + 1 ≤ errSec e := by
  intro secs
  induction secs with
  | nil => intro base e h; simp [numberEntries] at h
  | cons t ts ih =>
    intro base e h
    rw [show numberEntries base (t :: ts) = (base, t) :: numberEntries (base + 1) ts
      from rfl, List.flatMap_cons] at h
    rcases List.mem_append.mp h with h | h
    · rw [mem_sectionErrors_sec h]
    · have := ih (base + 1) e h
      omega

theorem count_entriesErrors {numPapers : Nat} :
    ∀ (secs : List ReviewSection) (base j : Nat) (s : ReviewSection) (a : CriticErr),
    secs[j]? = some s → errSec a = base + j + 1 →
    ((numberEntries base secs).flatMap (fun x => sectionErrors numPapers x.1 x.2)).count a
      = (sectionErrors numPapers (base + j) s).count a := by
  intro secs
  induction secs with
  | nil => intro base j s a h _; simp at h
  | cons t ts ih =>
    intro base j s a hget hsec
    rw [show numberEntries base (t :: ts) = (base, t) :: numberEntries (base + 1) ts
      from rfl, List.flatMap_cons, List.count_append]
    cases j with
    | zero =>
      obtain rfl : t = s := by simpa using hget
      have hz : ((numberEntries (base + 1) ts).flatMap
          (fun x => sectionErrors numPapers x.1 x.2)).count a = 0 := by
        apply List.count_eq_zero_of_not_mem
        intro hmem
        have := mem_entriesErrors_sec ts (base + 1) a hmem
        omega
      rw [hz, Nat.add_zero, Nat.add_zero]
    | succ j' =>
      have hget' : ts[j']? = some s := by simpa using hget
      have hz : (sectionErrors numPapers base t).count a = 0 := by
        apply List.count_eq_zero_of_not_mem
        intro hmem
        have := mem_sectionErrors_sec hmem
        omega
      rw [hz, ih (base + 1) j' s a hget' (by omega)]
      have harith : base + 1 + j' = base + (j' + 1) := by omega
      rw [harith, Nat.zero_add]

theorem count_missingPart {numPapers : Nat} {draft : DraftOutput} (a : CriticErr)
    (h : errSec a = 0 → False) :
    (((List.range' 1 numPapers).filter
      (fun i => decide (i ∉ allCited draft))).map CriticErr.missingPaper).count a = 0 := by
  apply List.count_eq_zero_of_not_mem
  intro hmem
  obtain ⟨i, _, rfl⟩ := List.mem_map.mp hmem
  exact h rfl

/-- Claim C3.  With valid range `1..|approved_papers|`, the critic's rule
error list contains exactly one out-of-range error per distinct out-of-range
cited index per section, exactly one no-citation error per section without a
placeholder, and exactly one missing-paper error per in-range index cited in
no section; and when any rule error exists the critic writes exactly that
list, increments `retry_count` by exactly 1, and its output does not depend
on the semantic verification stage. -/
theorem critic_rule_checks_correct (approved : List PaperMetadata)
    (draft : DraftOutput) (rc : Nat) :
    (∀ j s, draft.sections[j]? = some s → ∀ idx,
      (criticRuleErrors approved.length draft).count (CriticErr.halluc (j + 1) idx) =
        if idx ∈ citeMatches s.content ∧ (idx < 1 ∨ approved.length < idx)
        then 1 else 0) ∧
    (∀ j s, draft.sections[j]? = some s →
      (criticRuleErrors approved.length draft).count (CriticErr.noCitations (j + 1)) =
        if citeMatches s.content = [] then 1 else 0) ∧
    (∀ idx, (criticRuleErrors approved.length draft).count (CriticErr.missingPaper idx) =
      if 1 ≤ idx ∧ idx ≤ approved.length ∧ idx ∉ allCited draft then 1 else 0) ∧
    (criticRuleErrors approved.length draft ≠ [] → ∀ sem,
      critic_agent sem ⟨some draft, approved, rc⟩ =
        ⟨criticRuleErrors approved.length draft, rc + 1⟩) := by
  refine ⟨?_, ?_, ?_, ?_⟩
  · intro j s hget idx
    unfold criticRuleErrors
    rw [List.count_append,
      count_missingPart (CriticErr.halluc (j + 1) idx) (by intro h; simp [errSec] at h),
      count_entriesErrors draft.sections 0 j s _ hget (by simp [errSec]),
      Nat.add_zero]
    unfold sectionErrors
    rw [List.count_append]
    have hifz : (if citeMatches s.content = [] then [CriticErr.noCitations (0 + j + 1)]
        else []).count (CriticErr.halluc (j + 1) idx) = 0 := by
      by_cases hc : citeMatches s.content = [] <;> simp [hc]
    rw [hifz, Nat.add_zero]
    have hinj : Function.Injective (CriticErr.halluc (0 + j + 1)) := by
      intro x y hxy
      injection hxy
    rw [show CriticErr.halluc (j + 1) idx = CriticErr.halluc (0 + j + 1) idx by
        rw [Nat.zero_add],
      List.count_map_of_injective _ _ hinj]
    have hnodup : ((sectionCited s).filter
        (fun i => decide (i < 1 ∨ approved.length < i))).Nodup :=
      ((sorted_sortedDedup _).nodup).filter _
    by_cases hmem : idx ∈ citeMatches s.content ∧ (idx < 1 ∨ approved.length < idx)
    · rw [if_pos hmem]
      apply List.count_eq_one_of_mem hnodup
      rw [List.mem_filter]
      exact ⟨(mem_sortedDedup idx _).mpr hmem.1, by simpa using hmem.2⟩
    · rw [if_neg hmem]
      apply List.count_eq_zero_of_not_mem
      intro hx
      rw [List.mem_filter] at hx
      exact hmem ⟨(mem_sortedDedup idx _).mp hx.1, by simpa using hx.2⟩
  · intro j s hget
    unfold criticRuleErrors
    rw [List.count_append,
      count_missingPart (CriticErr.noCitations (j + 1)) (by intro h; simp [errSec] at h),
      count_entriesErrors draft.sections 0 j s _ hget (by simp [errSec]),
      Nat.add_zero]
    unfold sectionErrors
    rw [List.count_append]
    have hmapz : (((sectionCited s).filter
        (fun i => decide (i < 1 ∨ approved.length < i))).map
        (fun i => CriticErr.halluc (0 + j + 1) i)).count (CriticErr.noCitations (j + 1))
        = 0 := by
      apply List.count_eq_zero_of_not_mem
      intro hx
      obtain ⟨i, _, heq⟩ := List.mem_map.mp hx
      exact absurd heq (by simp)
    rw [hmapz, Nat.zero_add]
    by_cases hc : citeMatches s.content = [] <;> simp [hc]
  · intro idx
    unfold criticRuleErrors
    rw [List.count_append]
    have hz : ((numberEntries 0 draft.sections).flatMap
        (fun x => sectionErrors approved.length x.1 x.2)).count
        (CriticErr.missingPaper idx) = 0 := by
      apply List.count_eq_zero_of_not_mem
      intro hmem
      have := mem_entriesErrors_sec draft.sections 0 _ hmem
      simp [errSec] at this
    rw [hz, Nat.zero_add]
    have hinj : Function.Injective CriticErr.missingPaper := by
      intro x y hxy
      injection hxy
    rw [List.count_map_of_injective _ _ hinj]
    by_cases hmem : 1 ≤ idx ∧ idx ≤ approved.length ∧ idx ∉ allCited draft
    · rw [if_pos hmem]
      apply List.count_eq_one_of_mem ((List.nodup_range' 1 approved.length).filter _)
      rw [List.mem_filter]
      refine ⟨List.mem_range'_1.mpr ⟨hmem.1, by omega⟩, by simpa using hmem.2.2⟩
    · rw [if_neg hmem]
      apply List.count_eq_zero_of_not_mem
      intro hx
      rw [List.mem_filter] at hx
      have h1 := List.mem_range'_1.mp hx.1
      exact hmem ⟨h1.1, by omega, by simpa using hx.2⟩
  · intro hne sem
    unfold critic_agent
    dsimp only
    rw [if_neg (by simpa [List.isEmpty_iff] using hne)]

/-- Witness for claim C3: a one-section draft citing only the out-of-range
index 2 with one approved paper. -/
def c3Paper : PaperMetadata := ⟨"p3", "T3", true, some "c3"⟩

def c3Draft : DraftOutput :=
  ⟨"T", [⟨"S", ['{', 'c', 'i', 't', 'e', ':', '2', '}'], []⟩]⟩

theorem critic_rule_checks_correct_witness :
    (criticRuleErrors [c3Paper].length c3Draft).count (CriticErr.halluc 1 2) = 1 :=
  by
    have h := (critic_rule_checks_correct [c3Paper] c3Draft 0).1 0
      ⟨"S", ['{', 'c', 'i', 't', 'e', ':', '2', '}'], []⟩ (by decide) 2
    rw [h]
    decide

/-! ## The QA → reflection → retry control loop (claim C2)

`backend/workflow.py` is not among the provided sources, so the two routers
are modelled from the spec (§4.6) and their tests
(`tests/test_reflection.py:48-90`); the critic transition reuses the
embedded `critic_agent`; the other agents never touch `retry_count` or
`qa_errors` (their returned partial updates in `nodes.py` carry neither
key, except the critic's). -/

structure Reflection where
  should_retry : Bool
  retry_target : String
deriving DecidableEq, Repr

/-- The routing-relevant session state fields. -/
structure WFState where
  qa_errors : List CriticErr
  retry_count : Nat
  reflection : Option Reflection
  final_draft : Option DraftOutput
  approved_papers : List PaperMetadata

inductive GNode where
  | planner
  | retriever
  | extractor
  | writer
  | critic
  | reflection
  | terminal
deriving DecidableEq, Repr

/-- Modelled from the spec: `_qa_router` — empty `qa_errors` → terminal,
else → reflection (spec §4.6; `test_reflection.py:48-59`). -/
def qa_router (st : WFState) : GNode :=
  if st.qa_errors = [] then .terminal else .reflection

/-- Modelled from the spec: `_reflection_router` — no reflection, or
`should_retry = false`, or `retry_count ≥ MAX_QA_RETRIES` → terminal; else
the retry target, defaulting to writer for any target other than the
retriever (spec §4.6; `test_reflection.py:62-90`). -/
def reflection_router (st : WFState) : GNode :=
  match st.reflection with
  | none => .terminal
  | some r =>
    if r.should_retry = false then .terminal
    else if MAX_QA_RETRIES ≤ st.retry_count then .terminal
    else if r.retry_target = "retriever_agent" then .retriever
    else .writer

structure GConfig where
  node : GNode
  st : WFState

/-- The critic node applied to the workflow state. -/
def applyCritic (sem : CriticSem) (st : WFState) : WFState :=
  { st with
    qa_errors := (critic_agent sem ⟨st.final_draft, st.approved_papers, st.retry_count⟩).qa_errors
    retry_count :=
      (critic_agent sem ⟨st.final_draft, st.approved_papers, st.retry_count⟩).retry_count }

/-- One scheduler step: run the node the config points at (with its
nondeterministic LM-dependent outcome) and follow the graph edge.  The
human-approval pause before the extractor only patches `candidate_papers`,
which none of these fields depend on. -/
inductive GStep : GConfig → GConfig → Prop where
  | planner (st : WFState) : GStep ⟨.planner, st⟩ ⟨.retriever, st⟩
  | retriever (st : WFState) : GStep ⟨.retriever, st⟩ ⟨.extractor, st⟩
  | extractor (st : WFState) (papers : List PaperMetadata) :
      GStep ⟨.extractor, st⟩ ⟨.writer, { st with approved_papers := papers }⟩
  | writer (st : WFState) (d : Option DraftOutput) :
      GStep ⟨.writer, st⟩ ⟨.critic, { st with final_draft := d }⟩
  | critic (st : WFState) (sem : CriticSem) :
      GStep ⟨.critic, st⟩ ⟨qa_router (applyCritic sem st), applyCritic sem st⟩
  | reflection (st : WFState) (r : Option Reflection) :
      GStep ⟨.reflection, st⟩
        ⟨reflection_router { st with reflection := r }, { st with reflection := r }⟩

/-- The initial state written by `start_research` (`main.py:111-134`):
`retry_count = 0`, empty `qa_errors`, no reflection, no draft. -/
def initConfig : GConfig := ⟨.planner, ⟨[], 0, none, none, []⟩⟩

def Reach : GConfig → GConfig → Prop := Relation.ReflTransGen GStep

/-! ### Invariant and termination measure -/

def Inv (c : GConfig) : Prop :=
  c.st.retry_count ≤ MAX_QA_RETRIES ∧
  (c.node ≠ .terminal → c.node ≠ .reflection → c.st.retry_count + 1 ≤ MAX_QA_RETRIES)

theorem applyCritic_retry_le (sem : CriticSem) (st : WFState) :
    st.retry_count ≤ (applyCritic sem st).retry_count ∧
    (applyCritic sem st).retry_count ≤ st.retry_count + 1 := by
  obtain ⟨qa, rc, r0, fd, ap⟩ := st
  cases fd with
  | none => simp [applyCritic, critic_agent]
  | some draft =>
    by_cases he : (criticRuleErrors ap.length draft).isEmpty
    · cases sem <;> simp [applyCritic, critic_agent, he]
    · simp [applyCritic, critic_agent, he]

theorem applyCritic_retry_of_errors (sem : CriticSem) (st : WFState)
    (h : (applyCritic sem st).qa_errors ≠ []) :
    (applyCritic sem st).retry_count = st.retry_count + 1 := by
  obtain ⟨qa, rc, r0, fd, ap⟩ := st
  cases fd with
  | none => simp [applyCritic, critic_agent] at h
  | some draft =>
    by_cases he : (criticRuleErrors ap.length draft).isEmpty
    · cases sem with
      | skip => simp [applyCritic, critic_agent, he] at h
      | fail extra => simp [applyCritic, critic_agent, he]
    · simp [applyCritic, critic_agent, he]

theorem qa_router_cases (st : WFState) :
    qa_router st = .terminal ∨ (qa_router st = .reflection ∧ st.qa_errors ≠ []) := by
  unfold qa_router
  by_cases h : st.qa_errors = []
  · left; rw [if_pos h]
  · right; rw [if_neg h]; exact ⟨rfl, h⟩

theorem reflection_router_cases (st : WFState) :
    reflection_router st = .terminal ∨
    ((reflection_router st = .retriever ∨ reflection_router st = .writer) ∧
      st.retry_count + 1 ≤ MAX_QA_RETRIES) := by
  unfold reflection_router
  cases st.reflection with
  | none => left; rfl
  | some r =>
    dsimp only
    by_cases h1 : r.should_retry = false
    · left; rw [if_pos h1]
    · rw [if_neg h1]
      by_cases h2 : MAX_QA_RETRIES ≤ st.retry_count
      · left; rw [if_pos h2]
      · rw [if_neg h2]
        right
        refine ⟨?_, by omega⟩
        by_cases h3 : r.retry_target = "retriever_agent"
        · left; rw [if_pos h3]
        · right; rw [if_neg h3]

theorem gstep_inv {c c' : GConfig} (hInv : Inv c) (h : GStep c c') : Inv c' := by
  obtain ⟨h1, h2⟩ := hInv
  cases h with
  | planner st => exact ⟨h1, fun _ _ => h2 (by simp) (by simp)⟩
  | retriever st => exact ⟨h1, fun _ _ => h2 (by simp) (by simp)⟩
  | extractor st papers => exact ⟨h1, fun _ _ => h2 (by simp) (by simp)⟩
  | writer st d => exact ⟨h1, fun _ _ => h2 (by simp) (by simp)⟩
  | critic st sem =>
    have hrc := applyCritic_retry_le sem st
    have hb : st.retry_count + 1 ≤ MAX_QA_RETRIES := h2 (by simp) (by simp)
    constructor
    · show (applyCritic sem st).retry_count ≤ MAX_QA_RETRIES
      omega
    · intro ht hr
      rcases qa_router_cases (applyCritic sem st) with hq | hq
      · exact absurd hq ht
      · exact absurd hq.1 hr
  | reflection st r =>
    constructor
    · exact h1
    · intro ht hr
      rcases reflection_router_cases { st with reflection := r } with hq | hq
      · exact absurd hq ht
      · exact hq.2

def nodeRank : GNode → Nat
  | .terminal => 0
  | .critic => 1
  | .writer => 2
  | .extractor => 3
  | .retriever => 4
  | .reflection => 5
  | .planner => 6

def gMeasure (c : GConfig) : Nat :=
  (MAX_QA_RETRIES - c.st.retry_count) * 10 + nodeRank c.node

theorem gstep_measure_lt {c c' : GConfig} (hInv : Inv c) (h : GStep c c') :
    gMeasure c' < gMeasure c := by
  obtain ⟨h1, h2⟩ := hInv
  cases h with
  | planner st => simp [gMeasure, nodeRank]
  | retriever st => simp [gMeasure, nodeRank]
  | extractor st papers => simp [gMeasure, nodeRank]
  | writer st d => simp [gMeasure, nodeRank]
  | critic st sem =>
    have hrc := applyCritic_retry_le sem st
    have hb : st.retry_count + 1 ≤ MAX_QA_RETRIES := h2 (by simp) (by simp)
    unfold gMeasure
    rcases qa_router_cases (applyCritic sem st) with hq | hq
    · rw [hq]
      show (MAX_QA_RETRIES - (applyCritic sem st).retry_count) * 10 + nodeRank .terminal <
        (MAX_QA_RETRIES - st.retry_count) * 10 + nodeRank .critic
      simp only [nodeRank]
      omega
    · rw [hq.1]
      have := applyCritic_retry_of_errors sem st hq.2
      show (MAX_QA_RETRIES - (applyCritic sem st).retry_count) * 10 + nodeRank .reflection <
        (MAX_QA_RETRIES - st.retry_count) * 10 + nodeRank .critic
      simp only [nodeRank]
      omega
  | reflection st r =>
    unfold gMeasure
    rcases reflection_router_cases { st with reflection := r } with hq | ⟨hq, _⟩
    · rw [hq]; simp [nodeRank]
    · rcases hq with hq | hq <;> (rw [hq]; simp [nodeRank])

theorem reach_inv {c : GConfig} (h : Reach initConfig c) : Inv c := by
  induction h with
  | refl => exact ⟨by simp [initConfig, MAX_QA_RETRIES], fun _ _ => by
      simp [initConfig, MAX_QA_RETRIES]⟩
  | tail hsteps hstep ih => exact gstep_inv ih hstep

/-- Claim C2.  In every reachable configuration of a session,
`retry_count ≤ MAX_QA_RETRIES` (= 3); non-critic nodes never change
`retry_count`; a failing critic check increments it by exactly 1; and every
execution chain from the initial configuration has at most 36 steps, so the
graph terminates within the retry bound. -/
theorem retry_count_bounded_and_terminates :
    (∀ c : GConfig, Reach initConfig c → c.st.retry_count ≤ MAX_QA_RETRIES) ∧
    (∀ c c' : GConfig, GStep c c' → c.node ≠ .critic →
      c'.st.retry_count = c.st.retry_count) ∧
    (∀ (sem : CriticSem) (st : WFState), (applyCritic sem st).qa_errors ≠ [] →
      (applyCritic sem st).retry_count = st.retry_count + 1) ∧
    (∀ (n : Nat) (f : Nat → GConfig), f 0 = initConfig →
      (∀ i, i < n → GStep (f i) (f (i + 1))) → n ≤ 36) := by
  refine ⟨fun c h => (reach_inv h).1, ?_, fun sem st h => applyCritic_retry_of_errors sem st h, ?_⟩
  · intro c c' hstep hnode
    cases hstep with
    | planner st => rfl
    | retriever st => rfl
    | extractor st papers => rfl
    | writer st d => rfl
    | critic st sem => exact absurd rfl hnode
    | reflection st r => rfl
  · intro n f h0 hsteps
    have hreach : ∀ i, i ≤ n → Reach initConfig (f i) := by
      intro i
      induction i with
      | zero => intro _; rw [h0]; exact Relation.ReflTransGen.refl
      | succ j ih =>
        intro hj
        exact Relation.ReflTransGen.tail (ih (by omega)) (hsteps j (by omega))
    have hmono : ∀ i, i ≤ n → gMeasure (f i) + i ≤ 36 := by
      intro i
      induction i with
      | zero =>
        intro _
        rw [h0]
        simp [gMeasure, initConfig, nodeRank, MAX_QA_RETRIES]
      | succ j ih =>
        intro hj
        have hlt := gstep_measure_lt (reach_inv (hreach j (by omega))) (hsteps j (by omega))
        have := ih (by omega)
        omega
    have := hmono n le_rfl
    omega

/-- Witness for claim C2 at the concrete one-step chain planner → retriever. -/
theorem retry_count_bounded_and_terminates_witness :
    (⟨GNode.retriever, ⟨[], 0, none, none, []⟩⟩ : GConfig).st.retry_count ≤
      MAX_QA_RETRIES :=
  retry_count_bounded_and_terminates.1 ⟨GNode.retriever, ⟨[], 0, none, none, []⟩⟩
    (Relation.ReflTransGen.single (GStep.planner ⟨[], 0, none, none, []⟩))

/-! ## Paper approval (`approve_papers`, `main.py:262-311`) -/

inductive ApproveErr where
  | notPaused
  | noMatch
deriving DecidableEq, Repr

/-- The update loop at `main.py:280-288`: every candidate whose id is in the
request is re-written with `is_approved := true` and counted — whether or
not it was already approved. -/
def approveCore (candidates : List PaperMetadata) (ids : List String) :
    List PaperMetadata × Nat :=
  match candidates with
  | [] => ([], 0)
  | p :: ps =>
    let r := approveCore ps ids
    if p.paper_id ∈ ids then ({ p with is_approved := true } :: r.1, r.2 + 1)
    else (p :: r.1, r.2)

/-- `approve_papers`: refuses when the session is not paused before the
extractor (`main.py:271-275`); refuses when no id matches
(`main.py:290-294`); otherwise patches `candidate_papers` and returns the
match count. -/
def approve_papers (pausedAtExtractor : Bool) (candidates : List PaperMetadata)
    (ids : List String) : Except ApproveErr (List PaperMetadata × Nat) :=
  if pausedAtExtractor = false then .error .notPaused
  else if (approveCore candidates ids).2 = 0 then .error .noMatch
  else .ok (approveCore candidates ids)

theorem approveCore_cons_mem {p : PaperMetadata} {ids : List String}
    (ps : List PaperMetadata) (h : p.paper_id ∈ ids) :
    approveCore (p :: ps) ids =
      ({ p with is_approved := true } :: (approveCore ps ids).1,
        (approveCore ps ids).2 + 1) := by
  simp [approveCore, h]

theorem approveCore_cons_not {p : PaperMetadata} {ids : List String}
    (ps : List PaperMetadata) (h : p.paper_id ∉ ids) :
    approveCore (p :: ps) ids = (p :: (approveCore ps ids).1, (approveCore ps ids).2) := by
  simp [approveCore, h]

/-- Claim C4 (amended).  `approved_count` counts every candidate whose id is
in the request, already-approved candidates included (not only the newly
flipped ones); a second identical approval returns the same candidate list
and the same count, and when every matched candidate was already approved
the candidate list is unchanged; the call errors when the session is not
paused or when no id matches. -/
theorem approve_counts_matched_ids (candidates : List PaperMetadata)
    (ids : List String) :
    (approveCore candidates ids).2 =
      (candidates.filter (fun p => decide (p.paper_id ∈ ids))).length ∧
    approveCore (approveCore candidates ids).1 ids = approveCore candidates ids ∧
    ((∀ p ∈ candidates, p.paper_id ∈ ids → p.is_approved = true) →
      (approveCore candidates ids).1 = candidates) ∧
    approve_papers false candidates ids = .error .notPaused ∧
    ((approveCore candidates ids).2 = 0 →
      approve_papers true candidates ids = .error .noMatch) ∧
    (0 < (approveCore candidates ids).2 →
      approve_papers true candidates ids = .ok (approveCore candidates ids)) := by
  refine ⟨?_, ?_, ?_, rfl, ?_, ?_⟩
  · induction candidates with
    | nil => rfl
    | cons p ps ih =>
      by_cases h : p.paper_id ∈ ids
      · rw [approveCore_cons_mem ps h]
        simp [h, ih]
      · rw [approveCore_cons_not ps h]
        simp [h, ih]
  · induction candidates with
    | nil => rfl
    | cons p ps ih =>
      by_cases h : p.paper_id ∈ ids
      · rw [approveCore_cons_mem ps h]
        have h2 : ({ p with is_approved := true } : PaperMetadata).paper_id ∈ ids := h
        rw [approveCore_cons_mem (approveCore ps ids).1 h2, ih]
      · rw [approveCore_cons_not ps h, approveCore_cons_not (approveCore ps ids).1 h, ih]
  · intro hall
    induction candidates with
    | nil => rfl
    | cons p ps ih =>
      by_cases h : p.paper_id ∈ ids
      · have happ : p.is_approved = true := hall p (by simp) h
        have hfix : ({ p with is_approved := true } : PaperMetadata) = p := by
          cases p
          simp_all
        rw [approveCore_cons_mem ps h, hfix, ih (fun q hq => hall q (by simp [hq]))]
      · rw [approveCore_cons_not ps h, ih (fun q hq => hall q (by simp [hq]))]
  · intro h0
    simp [approve_papers, h0]
  · intro hpos
    simp [approve_papers]
    omega

def c4Paper : PaperMetadata := ⟨"p4", "T4", true, some "c"⟩

/-- Claim C4, counterexample.  Re-approving a single already-approved
candidate flips nothing — the candidate list is unchanged and zero papers
go from unapproved to approved — yet `approved_count` is 1, not 0. -/
theorem approve_count_not_newly_flipped :
    (approveCore [c4Paper] ["p4"]).2 = 1 ∧
    (approveCore [c4Paper] ["p4"]).1 = [c4Paper] ∧
    ([c4Paper].filter
      (fun p => decide (p.is_approved = false ∧ p.paper_id ∈ ["p4"]))).length = 0 := by
  decide

/-- Witness for the amended claim C4 at a concrete already-approved list. -/
theorem approve_counts_matched_ids_witness :
    (approveCore [c4Paper] ["p4"]).1 = [c4Paper] :=
  (approve_counts_matched_ids [c4Paper] ["p4"]).2.2.1 (by decide)

/-! ## Model router (`select_model`, `backend/llm/router.py:22-76`) -/

/-- `CostTier` is an `IntEnum` with LOW = 1, MEDIUM = 2, HIGH = 3
(`tests/test_capabilities.py:62-64`); `rank` is Python's `int(cost_tier)`. -/
inductive CostTier where
  | low
  | medium
  | high
deriving DecidableEq, Repr

def CostTier.rank : CostTier → Nat
  | .low => 1
  | .medium => 2
  | .high => 3

inductive TaskType where
  | planning
  | extraction
  | writing
  | qa
  | reflection
deriving DecidableEq, Repr

structure TaskRequirement where
  needs_reasoning : Bool
  needs_structured_output : Bool
  needs_long_context : Bool
  prefers_creativity : Bool
  max_cost_tier : CostTier
  latency_sensitive : Bool
deriving DecidableEq, Repr

/-- `TASK_REQUIREMENTS` (`backend/llm/task_types.py:28-54`); field order:
reasoning, structured output, long context, creativity, max cost tier,
latency. -/
def TASK_REQUIREMENTS : TaskType → TaskRequirement
  | .planning => ⟨true, true, false, false, .high, false⟩
  | .extraction => ⟨false, true, false, false, .medium, true⟩
  | .writing => ⟨false, false, true, true, .high, false⟩
  | .qa => ⟨false, true, false, false, .low, true⟩
  | .reflection => ⟨true, true, false, false, .medium, false⟩

/-- The registry entries the router reads.  Scores are naturals in `[0,10]`
as produced by `_infer_capabilities` and the spec (§4.2). -/
structure ModelConfig where
  id : String
  enabled : Bool
  supports_structured_output : Bool
  supports_long_context : Bool
  cost_tier : CostTier
  reasoning_score : Nat
  creativity_score : Nat
  latency_score : Nat
deriving DecidableEq, Repr

def _cost_allowed (model_cost : CostTier) (max_cost : CostTier) : Bool :=
  model_cost.rank ≤ max_cost.rank

/-- `_score_model` (`router.py:22-34`) scaled by 10: the float weights
2.0, 1.5, 1.5 and 0.8 become the integers 20, 15, 15 and 8.  For integer
scores the float computation is exact enough that its ordering coincides
with this integer ordering (all exact partial sums are multiples of 0.5 and
the one inexact term, `0.8·(4 − cost_rank)`, is shared by equal-score
models, which must have equal cost tiers). -/
def score10 (m : ModelConfig) (t : TaskType) : Nat :=
  (if (TASK_REQUIREMENTS t).needs_reasoning then m.reasoning_score * 20 else 0) +
  (if (TASK_REQUIREMENTS t).prefers_creativity then m.creativity_score * 15 else 0) +
  (if (TASK_REQUIREMENTS t).latency_sensitive then m.latency_score * 15 else 0) +
  (4 - m.cost_tier.rank) * 8

/-- The candidate filter of `select_model` (`router.py:48-57`):
`needs_reasoning` is a scoring weight, not a filter, exactly as in the
source. -/
def routerEligible (t : TaskType) (m : ModelConfig) : Bool :=
  m.enabled &&
  (!(TASK_REQUIREMENTS t).needs_structured_output || m.supports_structured_output) &&
  (!(TASK_REQUIREMENTS t).needs_long_context || m.supports_long_context) &&
  _cost_allowed m.cost_tier (TASK_REQUIREMENTS t).max_cost_tier

/-- `select_model` (`router.py:37-76`).  The registry dict is modelled as an
insertion-ordered list whose keys are the configs' ids (that is how
`get_model_registry` builds it); the Python guard
`if override_model_id and override_model_id in available_models` tests
truthiness, so the empty string never wins; `sorted(..., reverse True)[0]`
on a stable sort is the first candidate attaining the maximal score. -/
def select_model (task_type : TaskType) (available_models : List ModelConfig)
    (override_model_id : Option String) : Option String :=
  if (match override_model_id with
      | some o => !o.isEmpty && available_models.any (fun m => m.id == o)
      | none => false) then
    override_model_id
  else
    match available_models.filter (routerEligible task_type) with
    | [] => none
    | c :: cs => some ((argmaxFirst (fun m => score10 m task_type) c cs).id)

theorem argmaxFirst_le {α : Type} (f : α → Nat) : ∀ (l : List α) (best : α),
    f best ≤ f (argmaxFirst f best l) ∧ ∀ x ∈ l, f x ≤ f (argmaxFirst f best l) := by
  intro l
  induction l with
  | nil => intro best; exact ⟨le_rfl, by simp⟩
  | cons x xs ih =>
    intro best
    by_cases h : f best < f x
    · simp only [argmaxFirst, if_pos h]
      obtain ⟨ih1, ih2⟩ := ih x
      refine ⟨le_of_lt (lt_of_lt_of_le h ih1), ?_⟩
      intro y hy
      rcases List.mem_cons.mp hy with rfl | hy
      · exact ih1
      · exact ih2 y hy
    · simp only [argmaxFirst, if_neg h]
      obtain ⟨ih1, ih2⟩ := ih best
      refine ⟨ih1, ?_⟩
      intro y hy
      rcases List.mem_cons.mp hy with rfl | hy
      · omega
      · exact ih2 y hy

/-- Claim C6 (amended).  A *non-empty* override present in the registry wins
unconditionally; an override that is empty or absent falls through to the
scored selection, which is `none` exactly when no model passes the filters
and otherwise a member of the filtered candidates whose (×10-scaled) score
is maximal — taken first in registry order on ties, so the selection is a
deterministic function of `(task_type, registry, override)`. -/
theorem select_model_override_and_highest_score (t : TaskType)
    (reg : List ModelConfig) (o : String) :
    (o ≠ "" → reg.any (fun m => m.id == o) = true →
      select_model t reg (some o) = some o) ∧
    ((o = "" ∨ reg.any (fun m => m.id == o) = false) →
      select_model t reg (some o) = select_model t reg none) ∧
    (reg.filter (routerEligible t) = [] → select_model t reg none = none) ∧
    (∀ c cs, reg.filter (routerEligible t) = c :: cs →
      ∃ m ∈ reg.filter (routerEligible t),
        select_model t reg none = some m.id ∧
        ∀ m' ∈ reg.filter (routerEligible t), score10 m' t ≤ score10 m t) := by
  refine ⟨?_, ?_, ?_, ?_⟩
  · intro hne hmem
    have hemp : o.isEmpty = false := by
      rw [Bool.eq_false_iff]
      intro hx
      exact hne ((String.isEmpty_iff o).mp hx)
    unfold select_model
    dsimp only
    rw [hemp, hmem]
    rfl
  · intro h
    have hcond : (!o.isEmpty && reg.any (fun m => m.id == o)) = false := by
      rcases h with rfl | h
      · rfl
      · rw [h, Bool.and_false]
    unfold select_model
    dsimp only
    rw [hcond]
    rfl
  · intro hfil
    unfold select_model
    dsimp only
    rw [hfil]
    rfl
  · intro c cs hfil
    unfold select_model
    dsimp only
    rw [hfil]
    refine ⟨argmaxFirst (fun m => score10 m t) c cs, ?_, rfl, ?_⟩
    · rcases argmaxFirst_mem (fun m => score10 m t) cs c with h | h
      · rw [h]; simp
      · simp [h]
    · intro m' hm'
      obtain ⟨h1, h2⟩ := argmaxFirst_le (fun m => score10 m t) cs c
      rcases List.mem_cons.mp hm' with rfl | hm'
      · exact h1
      · exact h2 m' hm'

def c6Model : ModelConfig := ⟨"", false, true, true, .low, 5, 5, 5⟩

/-- Claim C6, counterexample.  A registry containing the key `""` (an id the
registry types allow): the override `""` is present in the registry, yet
`select_model` ignores it — Python's truthiness check rejects the empty
string — and returns `none` (the lone model is disabled), not the
override. -/
theorem select_model_empty_override_ignored :
    ([c6Model].any (fun m => m.id == "")) = true ∧
    select_model .planning [c6Model] (some "") ≠ some "" := by
  decide

def c6wModel : ModelConfig := ⟨"m1", true, true, true, .low, 5, 5, 5⟩

/-- Witness for the amended claim C6: a non-empty override in the registry
wins. -/
theorem select_model_override_witness :
    select_model .planning [c6wModel] (some "m1") = some "m1" :=
  (select_model_override_and_highest_score .planning [c6wModel] "m1").1
    (by decide) (by decide)

/-! ## Schema-echo check in `structured_completion`
(`llm_client.py:512-530`) -/

inductive JsonVal where
  | null
  | bool (b : Bool)
  | num (n : Int)
  | str (s : String)
deriving DecidableEq, Repr

inductive LmError where
  | lmReturnedSchema
deriving DecidableEq, Repr

def schema_keys : List String := ["properties", "type", "required", "$schema", "$defs"]

/-- The post-parse classification at `llm_client.py:512-530`: `actual_keys`
is the key set minus `schema_keys`; an object containing `properties` and no
actual key raises (the spec's `LmReturnedSchemaError`); one containing
`properties` and actual keys is stripped of the schema keys; anything else
passes through to validation.  As an `Except`, the error branch returns no
value — the failed call produces nothing to mutate a draft with. -/
def checkSchemaEcho (parsed : List (String × JsonVal)) :
    Except LmError (List (String × JsonVal)) :=
  if "properties" ∈ parsed.map Prod.fst ∧
      (parsed.map Prod.fst).filter (fun k => decide (k ∉ schema_keys)) = [] then
    .error .lmReturnedSchema
  else if "properties" ∈ parsed.map Prod.fst then
    .ok (parsed.filter (fun kv => decide (kv.1 ∉ schema_keys)))
  else .ok parsed

/-- Claim C7 (amended).  The schema-echo failure requires the key
`properties`: an object containing `properties` and only schema-definition
keys fails with the schema error (returning no value), while an object
without `properties` passes through unchanged even if all its keys are
schema-definition keys. -/
theorem schema_echo_error_requires_properties_key
    (parsed : List (String × JsonVal)) :
    (("properties" ∈ parsed.map Prod.fst ∧
        ∀ k ∈ parsed.map Prod.fst, k ∈ schema_keys) →
      checkSchemaEcho parsed = .error .lmReturnedSchema) ∧
    ("properties" ∉ parsed.map Prod.fst → checkSchemaEcho parsed = .ok parsed) := by
  constructor
  · rintro ⟨hp, hall⟩
    unfold checkSchemaEcho
    rw [if_pos]
    refine ⟨hp, ?_⟩
    rw [List.filter_eq_nil_iff]
    intro k hk
    simpa using hall k hk
  · intro hp
    unfold checkSchemaEcho
    rw [if_neg (fun hx => hp hx.1), if_neg hp]

/-- Claim C7, counterexample.  The object `\x7b"type": "object"\x7d`
contains only schema-definition keys and no content key, yet the check does
not fail — the code requires the `properties` key — and validation may then
succeed against an all-optional response model. -/
theorem schema_only_keys_without_properties_pass :
    (∀ k ∈ ([("type", JsonVal.str "object")].map Prod.fst), k ∈ schema_keys) ∧
    (checkSchemaEcho [("type", JsonVal.str "object")]).isOk = true := by
  decide

/-- Witness for the amended claim C7 at the pure-schema object. -/
theorem schema_echo_error_witness :
    checkSchemaEcho [("properties", JsonVal.null)] =
      Except.error LmError.lmReturnedSchema :=
  (schema_echo_error_requires_properties_key [("properties", JsonVal.null)]).1
    (by decide)

/-! ## Streaming event queue (`StreamingEventQueue`, `event_queue.py:6-117`)

Tokens are `List Char`.  The queue of `push`/flush chunks is a list of
`Option (List Char)`; `none` is the terminator sentinel enqueued by
`close()`.  The 200 ms periodic flush is modelled as a nondeterministically
interleaved `timer` operation (a timer tick whose elapsed-time condition
fails is the absence of the operation); the consumer's 15 s heartbeat
sentinel is a consumer-side timeout artifact that the claim excludes, so
`consume()` is modelled as the chunks up to the terminator. -/

def SEMANTIC_BOUNDARIES : List Char := ['。', '！', '？', '.', '!', '?', '\n']

structure QState where
  buffer : List (List Char)
  queue : List (Option (List Char))
  closed : Bool

def qInit : QState := ⟨[], [], false⟩

/-- `_try_flush` with its condition met (`force` or elapsed ≥ 200 ms):
joins and enqueues the buffer when non-empty (`event_queue.py:38-51`). -/
def qFlush (s : QState) : QState :=
  if s.buffer = [] then s
  else { s with buffer := [], queue := s.queue ++ [some s.buffer.flatten] }

/-- `_should_flush_on_boundary` (`event_queue.py:53-55`). -/
def hasBoundary (tok : List Char) : Bool :=
  tok.any (fun c => decide (c ∈ SEMANTIC_BOUNDARIES))

/-- `push` (`event_queue.py:57-69`): discarded after close; otherwise
buffered, with a forced flush on a semantic boundary. -/
def qPush (tok : List Char) (s : QState) : QState :=
  if s.closed then s
  else if hasBoundary tok then qFlush { s with buffer := s.buffer ++ [tok] }
  else { s with buffer := s.buffer ++ [tok] }

/-- `close` (`event_queue.py:71-92`): idempotent; cancels the timer,
flushes the remaining buffer, enqueues the terminator sentinel. -/
def qClose (s : QState) : QState :=
  if s.closed then s
  else
    { qFlush s with queue := (qFlush s).queue ++ [none], closed := true }

inductive QOp where
  | push (tok : List Char)
  | timer
  | close
deriving DecidableEq, Repr

def qStep (s : QState) : QOp → QState
  | .push tok => qPush tok s
  | .timer => qFlush s
  | .close => qClose s

def qRun (ops : List QOp) (s : QState) : QState := ops.foldl qStep s

/-- The chunks `consume()` yields before breaking at the terminator
(`event_queue.py:97-105`), heartbeats excluded. -/
def consumeChunks : List (Option (List Char)) → List (List Char)
  | [] => []
  | some c :: r => c :: consumeChunks r
  | none :: _ => []

/-- The tokens pushed by an operation sequence, in push order. -/
def pushTokens : List QOp → List (List Char)
  | [] => []
  | .push tok :: r => tok :: pushTokens r
  | .timer :: r => pushTokens r
  | .close :: r => pushTokens r

/-- Total buffered-plus-queued content of a state. -/
def qContent (s : QState) : List Char :=
  (s.queue.filterMap id).flatten ++ s.buffer.flatten

/-! ### Event-queue lemmas -/

theorem qRun_append (ops₁ ops₂ : List QOp) (s : QState) :
    qRun (ops₁ ++ ops₂) s = qRun ops₂ (qRun ops₁ s) := by
  unfold qRun
  rw [List.foldl_append]

theorem qFlush_closed (s : QState) : (qFlush s).closed = s.closed := by
  unfold qFlush
  by_cases h : s.buffer = []
  · rw [if_pos h]
  · rw [if_neg h]

theorem qFlush_buffer (s : QState) : (qFlush s).buffer = [] := by
  unfold qFlush
  by_cases h : s.buffer = []
  · rw [if_pos h]; exact h
  · rw [if_neg h]

theorem qFlush_buffer_nil (s : QState) (h : s.buffer = []) : qFlush s = s := by
  unfold qFlush
  rw [if_pos h]

theorem qFlush_none_free (s : QState) (h : ∀ x ∈ s.queue, x ≠ none) :
    ∀ x ∈ (qFlush s).queue, x ≠ none := by
  unfold qFlush
  by_cases hb : s.buffer = []
  · rw [if_pos hb]; exact h
  · rw [if_neg hb]
    intro x hx
    rcases List.mem_append.mp hx with hx | hx
    · exact h x hx
    · simp at hx
      rw [hx]
      simp

theorem qFlush_content (s : QState) : qContent (qFlush s) = qContent s := by
  unfold qFlush qContent
  by_cases hb : s.buffer = []
  · rw [if_pos hb]
  · rw [if_neg hb]
    simp

/-- One open-state non-close step: stays open, keeps the queue free of the
terminator, and extends the content by exactly the pushed token. -/
theorem qStep_open (s : QState) (op : QOp) (hop : op ≠ QOp.close)
    (hc : s.closed = false) (hnf : ∀ x ∈ s.queue, x ≠ none) :
    (qStep s op).closed = false ∧
    (∀ x ∈ (qStep s op).queue, x ≠ none) ∧
    qContent (qStep s op) = qContent s ++ (pushTokens [op]).flatten := by
  cases op with
  | close => exact absurd rfl hop
  | timer =>
    refine ⟨by rw [show qStep s .timer = qFlush s from rfl, qFlush_closed]; exact hc,
      qFlush_none_free s hnf, ?_⟩
    rw [show qStep s .timer = qFlush s from rfl, qFlush_content]
    simp [pushTokens]
  | push tok =>
    show (qPush tok s).closed = false ∧ (∀ x ∈ (qPush tok s).queue, x ≠ none) ∧
      qContent (qPush tok s) = _
    unfold qPush
    rw [if_neg (by simp [hc])]
    have hbufc : qContent { s with buffer := s.buffer ++ [tok] } =
        qContent s ++ tok := by
      simp [qContent]
    by_cases hb : hasBoundary tok
    · rw [if_pos hb]
      refine ⟨by rw [qFlush_closed]; exact hc, qFlush_none_free _ hnf, ?_⟩
      rw [qFlush_content, hbufc]
      simp [pushTokens]
    · rw [if_neg hb]
      refine ⟨hc, hnf, ?_⟩
      rw [hbufc]
      simp [pushTokens]

theorem qRun_open : ∀ (ops : List QOp), (∀ op ∈ ops, op ≠ QOp.close) →
    ∀ (s : QState), s.closed = false → (∀ x ∈ s.queue, x ≠ none) →
    (qRun ops s).closed = false ∧
    (∀ x ∈ (qRun ops s).queue, x ≠ none) ∧
    qContent (qRun ops s) = qContent s ++ (pushTokens ops).flatten := by
  intro ops
  induction ops with
  | nil =>
    intro _ s hc hnf
    exact ⟨hc, hnf, by simp [qRun, pushTokens]⟩
  | cons op ops ih =>
    intro hops s hc hnf
    have hop : op ≠ QOp.close := hops op (by simp)
    obtain ⟨h1, h2, h3⟩ := qStep_open s op hop hc hnf
    have hrun : qRun (op :: ops) s = qRun ops (qStep s op) := rfl
    obtain ⟨g1, g2, g3⟩ := ih (fun x hx => hops x (by simp [hx])) (qStep s op) h1 h2
    refine ⟨by rw [hrun]; exact g1, by rw [hrun]; exact g2, ?_⟩
    rw [hrun, g3, h3]
    cases op with
    | close => exact absurd rfl hop
    | timer => simp [pushTokens]
    | push tok => simp [pushTokens]

/-- After close, every further operation is a no-op. -/
theorem qRun_closed : ∀ (ops : List QOp) (s : QState),
    s.closed = true → s.buffer = [] → qRun ops s = s := by
  intro ops
  induction ops with
  | nil => intro s _ _; rfl
  | cons op ops ih =>
    intro s hc hb
    have hstep : qStep s op = s := by
      cases op with
      | push tok => show qPush tok s = s; unfold qPush; rw [hc]; simp
      | timer => exact qFlush_buffer_nil s hb
      | close => show qClose s = s; unfold qClose; rw [hc]; simp
    show qRun ops (qStep s op) = s
    rw [hstep, ih s hc hb]

theorem none_free_rep : ∀ (q : List (Option (List Char))),
    (∀ x ∈ q, x ≠ none) → q = (q.filterMap id).map some := by
  intro q
  induction q with
  | nil => intro _; rfl
  | cons x r ih =>
    intro h
    cases x with
    | none => exact absurd rfl (h none (by simp))
    | some c =>
      simp only [List.filterMap_cons, id]
      rw [List.map_cons]
      rw [← ih (fun y hy => h y (by simp [hy]))]

theorem consumeChunks_rep (cs : List (List Char)) :
    consumeChunks (cs.map some ++ [none]) = cs := by
  induction cs with
  | nil => rfl
  | cons c r ih => simp [consumeChunks, ih]

/-- Claim C9.  For any operation sequence `pre ++ [close] ++ post` with no
close in `pre`: the final queue is a chunk list followed by exactly one
terminator sentinel at the end; the concatenation of the chunks `consume()`
yields equals the concatenation of the tokens pushed before the close, in
push order (lossless and order-preserving under any interleaving of timer
flushes); `consume()` stops at the terminator; and pushes in `post` (after
`close()`) are discarded. -/
theorem event_queue_lossless_ordered (pre post : List QOp)
    (hpre : ∀ op ∈ pre, op ≠ QOp.close) :
    ∃ cs : List (List Char),
      (qRun (pre ++ QOp.close :: post) qInit).queue = cs.map some ++ [none] ∧
      cs.flatten = (pushTokens pre).flatten ∧
      consumeChunks ((qRun (pre ++ QOp.close :: post) qInit).queue) = cs := by
  obtain ⟨h1, h2, h3⟩ := qRun_open pre hpre qInit rfl (by simp [qInit])
  have hrun : qRun (pre ++ QOp.close :: post) qInit =
      qRun post (qClose (qRun pre qInit)) := by
    rw [qRun_append]
    rfl
  have hcl : qClose (qRun pre qInit) =
      { qFlush (qRun pre qInit) with
        queue := (qFlush (qRun pre qInit)).queue ++ [none], closed := true } := by
    unfold qClose
    rw [if_neg (by simp [h1])]
  have hclosed : (qClose (qRun pre qInit)).closed = true := by
    rw [hcl]
  have hbuf : (qClose (qRun pre qInit)).buffer = [] := by
    rw [hcl]
    exact qFlush_buffer (qRun pre qInit)
  have hq1 : (qClose (qRun pre qInit)).queue =
      ((qFlush (qRun pre qInit)).queue.filterMap id).map some ++ [none] := by
    rw [hcl]
    show (qFlush (qRun pre qInit)).queue ++ [none] = _
    congr 1
    exact none_free_rep _ (qFlush_none_free _ h2)
  rw [hrun, qRun_closed post _ hclosed hbuf]
  refine ⟨(qFlush (qRun pre qInit)).queue.filterMap id, hq1, ?_,
    by rw [hq1, consumeChunks_rep]⟩
  have e1 : qContent (qFlush (qRun pre qInit)) =
      ((qFlush (qRun pre qInit)).queue.filterMap id).flatten := by
    unfold qContent
    rw [qFlush_buffer]
    simp
  rw [← e1, qFlush_content, h3]
  simp [qContent, qInit]

/-- Witness for claim C9 at a concrete run: two pushes and a timer flush
before close, one discarded push after. -/
theorem event_queue_lossless_ordered_witness :
    ∃ cs : List (List Char),
      (qRun ([QOp.push ['h', 'i'], QOp.timer, QOp.push ['!']] ++
        QOp.close :: [QOp.push ['x']]) qInit).queue = cs.map some ++ [none] ∧
      cs.flatten = (pushTokens [QOp.push ['h', 'i'], QOp.timer, QOp.push ['!']]).flatten ∧
      consumeChunks ((qRun ([QOp.push ['h', 'i'], QOp.timer, QOp.push ['!']] ++
        QOp.close :: [QOp.push ['x']]) qInit).queue) = cs :=
  event_queue_lossless_ordered [QOp.push ['h', 'i'], QOp.timer, QOp.push ['!']]
    [QOp.push ['x']] (by decide)

end AutoScholar